import Mathlib

/-!
Verification of the godlp DLP engine (detection, merge, de-identify, masking)
against its natural-language specification.

The Go sources are shallowly embedded: strings are byte lists (`Str := List Nat`,
each entry a byte value), Go `int`/`int32` fields that can be negative are `Int`,
byte offsets that are always non-negative are `Nat`, and fallible code (code that
can panic with an index-out-of-range) returns `Option`.
-/

namespace Godlp

/-- Go strings are byte slices; we model them as lists of byte values. -/
abbrev Str := List Nat

/-- ASCII lower-casing of a single byte, the byte-level core of
`strings.ToLower` (the engine only lower-cases ASCII keys in the inputs we
quantify over; multi-byte UTF-8 sequences use bytes >= 0x80 which are
untouched by this map, matching Go on ASCII data). -/
def lowerByte (b : Nat) : Nat :=
  if 65 <= b && b <= 90 then b + 32 else b

/-- `strings.ToLower` on a byte string, ASCII fragment. -/
def asciiLower (s : Str) : Str := s.map lowerByte

/-! ## C5: escape unquoting (`unquoteEscapeChar`, sdk_detect.go) -/

/-- The `switch c` table inside `unquoteEscapeChar` (sdk_detect.go): the byte
written at position `i+1`; `value` starts as a space byte and is only changed
for the ten recognized escapes. -/
def unquoteValue (c : Nat) : Nat :=
  if c = 97 then 7        -- 'a' -> \a
  else if c = 98 then 8   -- 'b' -> \b
  else if c = 102 then 12 -- 'f' -> \f
  else if c = 110 then 10 -- 'n' -> \n
  else if c = 114 then 13 -- 'r' -> \r
  else if c = 116 then 9  -- 't' -> \t
  else if c = 118 then 11 -- 'v' -> \v
  else if c = 92 then 92  -- '\\' -> \\
  else if c = 34 then 34  -- '"' -> "
  else if c = 39 then 39  -- '\'' -> '
  else 32                 -- unknown escape: value stays the space byte

/-- `unquoteEscapeChar` (sdk_detect.go): scan left to right; at a backslash
with a following byte, write a space at the backslash position and the decoded
value at the next position, and skip both; otherwise advance one byte.  A
trailing lone backslash is left in place. -/
def unquoteEscapeChar : Str → Str
  | [] => []
  | [b] => [b]
  | b :: c :: rest =>
    if b = 92 then 32 :: unquoteValue c :: unquoteEscapeChar rest
    else b :: unquoteEscapeChar (c :: rest)

/-- Decoded byte demanded by the spec's table: `x ∈ {a,b,f,n,r,t,v,\,",'}`
maps to the decoded single byte, anything else to a space.  Written from the
spec's wording, to be compared with the source table `unquoteValue`. -/
def specEscapeByte (c : Nat) : Nat :=
  if c = 97 then 7 else if c = 98 then 8 else if c = 102 then 12
  else if c = 110 then 10 else if c = 114 then 13 else if c = 116 then 9
  else if c = 118 then 11 else if c = 92 then 92 else if c = 34 then 34
  else if c = 39 then 39 else 32

theorem unquoteEscapeChar_length : ∀ l : Str, (unquoteEscapeChar l).length = l.length := by
  intro l
  induction l using unquoteEscapeChar.induct
  all_goals simp_all [unquoteEscapeChar]

/-- C5: escape unquoting rewrites every two-byte escape `\x` to a space
followed by the decoded byte (decoded per the spec's table, a space for
unknown escapes), never touches a non-backslash byte or a trailing lone
backslash, and preserves the byte length. -/
theorem C5_unquote_escape :
    (∀ l : Str, (unquoteEscapeChar l).length = l.length) ∧
    (∀ (c : Nat) (rest : Str),
      unquoteEscapeChar (92 :: c :: rest) = 32 :: specEscapeByte c :: unquoteEscapeChar rest) ∧
    (∀ (b : Nat) (rest : Str), b ≠ 92 →
      unquoteEscapeChar (b :: rest) = b :: unquoteEscapeChar rest) ∧
    (unquoteEscapeChar [92] = [92]) := by
  refine ⟨unquoteEscapeChar_length, ?_, ?_, rfl⟩
  · intro c rest
    have : unquoteValue c = specEscapeByte c := by
      unfold unquoteValue specEscapeByte
      rfl
    simp [unquoteEscapeChar, this]
  · intro b rest hb
    cases rest with
    | nil => simp [unquoteEscapeChar]
    | cons c tl => simp [unquoteEscapeChar, hb]

/-- Witness for C5: the third conjunct discharged at `b = 97` (letter 'a'). -/
theorem C5_unquote_escape_witness :
    unquoteEscapeChar [97, 92, 110] = 97 :: unquoteEscapeChar [92, 110] :=
  C5_unquote_escape.2.2.1 97 [92, 110] (by decide)

/-! ## C7: CREDITCARD verification (`verifyByCreditCard`, detector) -/

/-- Go `byte(c) - '0'` is unsigned byte arithmetic modulo 256. -/
def goByteSubZero (c : Nat) : Nat := (c + 256 - 48) % 256

/-- `strings.Replace(patternText, "-", "", -1)`: drop every `-` byte. -/
def sanitizeDashes (s : Str) : Str := s.filter (fun c => !(c == 45))

/-- The summation loop of `verifyByCreditCard` (detector.go), iterating from
the rightmost byte; we pass the byte list already reversed, with the current
`alternate` flag. -/
def luhnLoop : List Nat → Bool → Nat
  | [], _ => 0
  | c :: rest, alternate =>
    let m := goByteSubZero c
    let m := if alternate then (if m * 2 > 9 then m * 2 % 10 + 1 else m * 2) else m
    m + luhnLoop rest !alternate

/-- `verifyByCreditCard` (detector.go): strip dashes, require 13-19 bytes,
then check the Luhn sum modulo 10. -/
def verifyByCreditCard (text : Str) : Bool :=
  let san := sanitizeDashes text
  let n := san.length
  if n < 13 || n > 19 then false
  else luhnLoop san.reverse false % 10 == 0

mutual
/-- Spec-side Luhn sum over digit values, rightmost digit first: the digit at
an even distance from the right is taken as is. -/
def specLuhnSum : List Nat → Nat
  | [] => 0
  | d :: rest => d + specLuhnSumDouble rest
/-- Spec-side Luhn sum, at an odd distance from the right: the digit is
doubled and reduced by 9 when the doubled value exceeds 9. -/
def specLuhnSumDouble : List Nat → Nat
  | [] => 0
  | d :: rest => (if 2 * d > 9 then 2 * d - 9 else 2 * d) + specLuhnSum rest
end

theorem luhnLoop_eq_spec : ∀ l : Str, (∀ c ∈ l, 48 ≤ c ∧ c ≤ 57) →
    luhnLoop l false = specLuhnSum (l.map (fun c => c - 48)) ∧
    luhnLoop l true = specLuhnSumDouble (l.map (fun c => c - 48)) := by
  intro l
  induction l with
  | nil => simp [luhnLoop, specLuhnSum, specLuhnSumDouble]
  | cons c rest ih =>
    intro h
    have hc := h c (by simp)
    have hrest := ih (fun x hx => h x (by simp [hx]))
    have hsub : goByteSubZero c = c - 48 := by
      unfold goByteSubZero; omega
    have harith : (if (c - 48) * 2 > 9 then (c - 48) * 2 % 10 + 1 else (c - 48) * 2)
        = (if 2 * (c - 48) > 9 then 2 * (c - 48) - 9 else 2 * (c - 48)) := by
      have h2 : (c - 48) * 2 = 2 * (c - 48) := by ring
      rw [h2]; split <;> omega
    constructor
    · simp [luhnLoop, specLuhnSum, hsub, hrest.2]
    · simp only [luhnLoop, specLuhnSumDouble, List.map_cons, hsub, Bool.not_true, if_true]
      simp only [show (true = true) = True by simp, if_true, harith, hrest.1]

/-- C7: on strings of ASCII digits and dashes, `verifyByCreditCard` accepts
exactly when the dash-stripped digit string has length 13 to 19 and its Luhn
sum (doubling every second digit from the right, reducing values above 9 by 9)
is divisible by 10; consequently every 12-digit string is rejected. -/
theorem C7_creditcard_luhn :
    (∀ s : Str, (∀ c ∈ s, (48 ≤ c ∧ c ≤ 57) ∨ c = 45) →
      (verifyByCreditCard s = true ↔
        (13 ≤ (sanitizeDashes s).length ∧ (sanitizeDashes s).length ≤ 19 ∧
         specLuhnSum ((sanitizeDashes s).reverse.map (fun c => c - 48)) % 10 = 0))) ∧
    (∀ s : Str, (∀ c ∈ s, 48 ≤ c ∧ c ≤ 57) → s.length = 12 →
      verifyByCreditCard s = false) := by
  constructor
  · intro s hs
    have hdig : ∀ c ∈ (sanitizeDashes s).reverse, 48 ≤ c ∧ c ≤ 57 := by
      intro c hc
      rw [List.mem_reverse] at hc
      have hc2 : c ∈ s.filter (fun c => !(c == 45)) := hc
      rw [List.mem_filter] at hc2
      have hmem := hs c hc2.1
      have hne := hc2.2
      simp only [Bool.not_eq_true', beq_eq_false_iff_ne, ne_eq] at hne
      omega
    have hloop := (luhnLoop_eq_spec _ hdig).1
    unfold verifyByCreditCard
    simp only [hloop]
    constructor
    · intro h
      split at h
      · exact absurd h (by simp)
      · next hlen =>
        simp only [Bool.or_eq_true, decide_eq_true_eq, not_or] at hlen
        push_neg at hlen
        refine ⟨by omega, by omega, by simpa using h⟩
    · rintro ⟨h1, h2, h3⟩
      rw [if_neg (by simp; omega)]
      simpa using h3
  · intro s hs hlen
    have hid : sanitizeDashes s = s := by
      unfold sanitizeDashes
      apply List.filter_eq_self.mpr
      intro c hc
      have := hs c hc
      simp only [Bool.not_eq_true', beq_eq_false_iff_ne, ne_eq]
      omega
    unfold verifyByCreditCard
    rw [hid]
    simp [hlen]

/-- Witness for C7: the standard Luhn-valid 16-digit test number
4111111111111111 is accepted, and a 12-digit string is rejected. -/
theorem C7_creditcard_luhn_witness :
    verifyByCreditCard [52, 49, 49, 49, 49, 49, 49, 49, 49, 49, 49, 49, 49, 49, 49, 49] = true ∧
    verifyByCreditCard [49, 49, 49, 49, 49, 49, 49, 49, 49, 49, 49, 49] = false := by
  constructor
  · exact (C7_creditcard_luhn.1 _ (by decide)).2 (by decide)
  · exact C7_creditcard_luhn.2 _ (by decide) (by decide)

/-! ## C3: lifecycle gates and panic recovery (sdk_detect.go, sdk_de_identify.go,
sdk_mask.go, internal.go) -/

/-- Engine lifecycle flags (`Engine` struct, sdk.go). -/
structure EngineState where
  isConfigured : Bool
  isClosed : Bool
  isForLog : Bool
  deriving DecidableEq

/-- The error values of `header/error.go` relevant to the public-API gates. -/
inductive DlpErr where
  | hasNotConfigured
  | processAfterClose
  | onlyForLog
  | maxInputLimit
  | maskWorkerNotfound
  | maskNameConflict
  | maskStructInput
  | runtimeIndexOutOfRange
  deriving DecidableEq

/-- How a public API call ends. -/
inductive ApiOutcome where
  /-- a panic propagating out of the public call -/
  | panicked (e : DlpErr)
  /-- a non-nil error returned to the caller -/
  | failed (e : DlpErr)
  /-- a panic caught by `recoveryImpl`: zero values are returned -/
  | recovered
  /-- all lifecycle and input gates passed -/
  | proceeded
  deriving DecidableEq

/-- `isCriticalPanic` (internal.go): only `ErrHasNotConfigured` is critical. -/
def isCriticalPanic (e : DlpErr) : Bool := e == .hasNotConfigured

/-- `recoveryImpl` (internal.go): re-panic on a critical panic, otherwise
recover, leaving the deferred function's zero return values. -/
def recoveryImpl : ApiOutcome → ApiOutcome
  | .panicked e => if isCriticalPanic e then .panicked e else .recovered
  | o => o

/-- `DefMaxInput` (1 MiB). -/
def DefMaxInput : Nat := 1024 * 1024

/-- `DefMaxItem` (4096). -/
def DefMaxItem : Nat := 1024 * 4

/-- `Detect` gates (sdk_detect.go): not-configured panic, closed error, input
size cap, then the detect implementation runs. -/
def detectGates (st : EngineState) (inputLen : Nat) : ApiOutcome :=
  recoveryImpl <|
    if !st.isConfigured then .panicked .hasNotConfigured
    else if st.isClosed then .failed .processAfterClose
    else if inputLen > DefMaxInput then .failed .maxInputLimit
    else .proceeded

/-- `DetectMap` gates (sdk_detect.go). -/
def detectMapGates (st : EngineState) (itemCount : Nat) : ApiOutcome :=
  recoveryImpl <|
    if !st.isConfigured then .panicked .hasNotConfigured
    else if st.isClosed then .failed .processAfterClose
    else if itemCount > DefMaxItem then .failed .maxInputLimit
    else .proceeded

/-- `DetectJSON` gates (sdk_detect.go). -/
def detectJSONGates (st : EngineState) : ApiOutcome :=
  recoveryImpl <|
    if !st.isConfigured then .panicked .hasNotConfigured
    else if st.isClosed then .failed .processAfterClose
    else .proceeded

/-- `DeIdentify` gates (sdk_de_identify.go): also rejects log-only engines. -/
def deIdentifyGates (st : EngineState) (inputLen : Nat) : ApiOutcome :=
  recoveryImpl <|
    if !st.isConfigured then .panicked .hasNotConfigured
    else if st.isClosed then .failed .processAfterClose
    else if st.isForLog then .failed .onlyForLog
    else if inputLen > DefMaxInput then .failed .maxInputLimit
    else .proceeded

/-- `DeIdentifyMap` gates (sdk_de_identify.go). -/
def deIdentifyMapGates (st : EngineState) (itemCount : Nat) : ApiOutcome :=
  recoveryImpl <|
    if !st.isConfigured then .panicked .hasNotConfigured
    else if st.isClosed then .failed .processAfterClose
    else if itemCount > DefMaxItem then .failed .maxInputLimit
    else .proceeded

/-- `DeIdentifyJSON` gates (sdk_de_identify.go). -/
def deIdentifyJSONGates (st : EngineState) : ApiOutcome :=
  recoveryImpl <|
    if !st.isConfigured then .panicked .hasNotConfigured
    else if st.isClosed then .failed .processAfterClose
    else .proceeded

/-- `DeIdentifyJSONByResult` gates (sdk_de_identify.go). -/
def deIdentifyJSONByResultGates (st : EngineState) : ApiOutcome :=
  recoveryImpl <|
    if !st.isConfigured then .panicked .hasNotConfigured
    else if st.isClosed then .failed .processAfterClose
    else .proceeded

/-- `Mask` gates (sdk_mask.go): size cap and mask-worker lookup. -/
def maskGates (st : EngineState) (inputLen : Nat) (workerFound : Bool) : ApiOutcome :=
  recoveryImpl <|
    if !st.isConfigured then .panicked .hasNotConfigured
    else if st.isClosed then .failed .processAfterClose
    else if inputLen > DefMaxInput then .failed .maxInputLimit
    else if !workerFound then .failed .maskWorkerNotfound
    else .proceeded

/-- `MaskStruct` gates (sdk_mask.go): nil input rejected after the lifecycle
checks. -/
def maskStructGates (st : EngineState) (inputIsNil : Bool) : ApiOutcome :=
  recoveryImpl <|
    if !st.isConfigured then .panicked .hasNotConfigured
    else if st.isClosed then .failed .processAfterClose
    else if inputIsNil then .failed .maskStructInput
    else .proceeded

/-- `RegisterMasker` gates (sdk_mask.go): name conflicts rejected after the
lifecycle checks. -/
def registerMaskerGates (st : EngineState) (nameExists : Bool) : ApiOutcome :=
  recoveryImpl <|
    if !st.isConfigured then .panicked .hasNotConfigured
    else if st.isClosed then .failed .processAfterClose
    else if nameExists then .failed .maskNameConflict
    else .proceeded

/-- C3: every public operation panics with the critical `NotConfigured` error
(re-raised, not neutralized, by the recovery wrapper) on an unconfigured
engine, and returns `ProcessAfterClose` on a configured engine that has been
closed. -/
theorem C3_lifecycle_gates :
    (∀ (st : EngineState) (n m : Nat) (b c : Bool), st.isConfigured = false →
      detectGates st n = .panicked .hasNotConfigured ∧
      detectMapGates st m = .panicked .hasNotConfigured ∧
      detectJSONGates st = .panicked .hasNotConfigured ∧
      deIdentifyGates st n = .panicked .hasNotConfigured ∧
      deIdentifyMapGates st m = .panicked .hasNotConfigured ∧
      deIdentifyJSONGates st = .panicked .hasNotConfigured ∧
      deIdentifyJSONByResultGates st = .panicked .hasNotConfigured ∧
      maskGates st n b = .panicked .hasNotConfigured ∧
      maskStructGates st c = .panicked .hasNotConfigured ∧
      registerMaskerGates st b = .panicked .hasNotConfigured) ∧
    (∀ (st : EngineState) (n m : Nat) (b c : Bool),
      st.isConfigured = true → st.isClosed = true →
      detectGates st n = .failed .processAfterClose ∧
      detectMapGates st m = .failed .processAfterClose ∧
      detectJSONGates st = .failed .processAfterClose ∧
      deIdentifyGates st n = .failed .processAfterClose ∧
      deIdentifyMapGates st m = .failed .processAfterClose ∧
      deIdentifyJSONGates st = .failed .processAfterClose ∧
      deIdentifyJSONByResultGates st = .failed .processAfterClose ∧
      maskGates st n b = .failed .processAfterClose ∧
      maskStructGates st c = .failed .processAfterClose ∧
      registerMaskerGates st b = .failed .processAfterClose) := by
  constructor
  · intro st n m b c hconf
    simp [detectGates, detectMapGates, detectJSONGates, deIdentifyGates,
      deIdentifyMapGates, deIdentifyJSONGates, deIdentifyJSONByResultGates,
      maskGates, maskStructGates, registerMaskerGates, recoveryImpl,
      isCriticalPanic, hconf]
  · intro st n m b c hconf hclosed
    simp [detectGates, detectMapGates, detectJSONGates, deIdentifyGates,
      deIdentifyMapGates, deIdentifyJSONGates, deIdentifyJSONByResultGates,
      maskGates, maskStructGates, registerMaskerGates, recoveryImpl,
      isCriticalPanic, hconf, hclosed]

/-- Witness for C3: concrete unconfigured and configured-then-closed states. -/
theorem C3_lifecycle_gates_witness :
    detectGates ⟨false, false, false⟩ 0 = .panicked .hasNotConfigured ∧
    detectGates ⟨true, true, false⟩ 0 = .failed .processAfterClose :=
  ⟨(C3_lifecycle_gates.1 ⟨false, false, false⟩ 0 0 false false rfl).1,
   (C3_lifecycle_gates.2 ⟨true, true, false⟩ 0 0 false false rfl rfl).1⟩

/-! ## Detect results (header.DetectResult) -/

/-- `header.DetectResult`, restricted to the fields the verified operations
touch (`ResultType` is one of the string constants VALUE / KV). -/
structure DetectResult where
  ruleID : Int
  text : Str
  maskText : Str
  resultType : Str
  key : Str
  byteStart : Nat
  byteEnd : Nat
  deriving DecidableEq, Repr, Inhabited

/-! ## C2: `deIdentifyByResult` length arithmetic (sdk_de_identify.go) -/

/-- The loop of `deIdentifyByResult` (sdk_de_identify.go), with the running
write position `pos` made explicit; after the loop the remaining tail of the
input is appended when `pos < len(in)`. -/
def deIdentifyLoop (input : Str) (pos : Nat) : List DetectResult → Str
  | [] => if pos < input.length then input.drop pos else []
  | r :: rest =>
    (if pos < r.byteStart then (input.drop pos).take (r.byteStart - pos) else [])
      ++ r.maskText ++ deIdentifyLoop input r.byteEnd rest

/-- `deIdentifyByResult` (sdk_de_identify.go): concatenate the unmatched gaps
with each result's `MaskText`. -/
def deIdentifyByResult (input : Str) (arr : List DetectResult) : Str :=
  deIdentifyLoop input 0 arr

/-- The claim's hypothesis on the result list: entries sorted ascending by
`byte_start` with pairwise non-overlapping spans inside the input, threaded as
a chain `pos ≤ byte_start ≤ byte_end ≤ |input|` from write position `pos`. -/
def validChain (inputLen : Nat) : Nat → List DetectResult → Bool
  | _, [] => true
  | pos, r :: rest =>
    decide (pos ≤ r.byteStart) && decide (r.byteStart ≤ r.byteEnd) &&
      decide (r.byteEnd ≤ inputLen) && validChain inputLen r.byteEnd rest

theorem deIdentifyLoop_length (input : Str) :
    ∀ (arr : List DetectResult) (pos : Nat), pos ≤ input.length →
      validChain input.length pos arr = true →
      ((deIdentifyLoop input pos arr).length : Int) =
        ((input.length : Int) - pos) +
          (arr.map (fun r =>
            (r.maskText.length : Int) - ((r.byteEnd : Int) - (r.byteStart : Int)))).sum := by
  intro arr
  induction arr with
  | nil =>
    intro pos hpos _
    simp only [deIdentifyLoop, List.map_nil, List.sum_nil, add_zero]
    rcases Nat.lt_or_ge pos input.length with h | h
    · rw [if_pos h]
      simp only [List.length_drop]
      omega
    · rw [if_neg (by omega)]
      simp only [List.length_nil]
      omega
  | cons r rest ih =>
    intro pos hpos hvalid
    simp only [validChain, Bool.and_eq_true, decide_eq_true_eq] at hvalid
    obtain ⟨⟨⟨h1, h2⟩, h3⟩, h4⟩ := hvalid
    have hrec := ih r.byteEnd h3 h4
    simp only [deIdentifyLoop, List.length_append, List.map_cons, List.sum_cons]
    have hgap : ((if pos < r.byteStart then (input.drop pos).take (r.byteStart - pos)
        else []).length : Int) = (r.byteStart : Int) - pos := by
      rcases Nat.lt_or_ge pos r.byteStart with h | h
      · rw [if_pos h]
        simp only [List.length_take, List.length_drop]
        omega
      · rw [if_neg (by omega)]
        simp only [List.length_nil]
        omega
    push_cast
    push_cast at hgap hrec
    rw [hgap, hrec]
    ring

/-- C2: for a sorted, pairwise non-overlapping, in-bounds result list, the
de-identified string's byte length is the input's length plus the sum over
results of `|mask_text| - (byte_end - byte_start)`. -/
theorem C2_deidentify_length (input : Str) (arr : List DetectResult)
    (h : validChain input.length 0 arr = true) :
    ((deIdentifyByResult input arr).length : Int) =
      (input.length : Int) +
        (arr.map (fun r =>
          (r.maskText.length : Int) - ((r.byteEnd : Int) - (r.byteStart : Int)))).sum := by
  have := deIdentifyLoop_length input arr 0 (Nat.zero_le _) h
  unfold deIdentifyByResult
  omega

/-- Witness for C2: a four-byte input with one result replacing bytes
`[1, 3)` by a single mask byte; output length is 3 = 4 + (1 - 2). -/
theorem C2_deidentify_length_witness :
    ((deIdentifyByResult [97, 98, 99, 100]
        [{ ruleID := 1, text := [98, 99], maskText := [42], resultType := [],
           key := [], byteStart := 1, byteEnd := 3 }]).length : Int) =
      (4 : Int) + ((1 : Int) - 2) := by
  have := C2_deidentify_length [97, 98, 99, 100]
    [{ ruleID := 1, text := [98, 99], maskText := [42], resultType := [],
       key := [], byteStart := 1, byteEnd := 3 }] (by decide)
  simpa using this

/-! ## C4: CHAR mask worker (`maskCharImpl`, mask/mask.go) -/

/-- `conf.MaskRuleItem`, restricted to the fields `maskCharImpl` reads
(`IgnoreCharSet` is the set after `NewWorker` has expanded `IgnoreKind`). -/
structure MaskRuleItem where
  ruleName : Str
  maskType : Str
  value : Str
  offset : Int
  padding : Int
  length : Int
  reverse : Bool
  ignoreCharSet : Str
  deriving DecidableEq, Repr, Inhabited

/-- The replacement byte: `value[0]` when `value` is non-empty, else `*`. -/
def maskChByte (rule : MaskRuleItem) : Nat :=
  if rule.value.length > 0 then rule.value.headD 42 else 42

/-- The forward loop of `maskCharImpl`: `for i := st; i < ed; i++`, breaking
once `cnt` reaches a positive `Length`, replacing bytes not in the ignore set.
An out-of-range index access returns `none` (a Go panic). -/
def maskCharFwd (ignore : Str) (len0 : Int) (ch : Nat)
    (out : Str) (i : Nat) (ed : Int) (cnt : Int) : Option Str :=
  if (i : Int) < ed then
    if len0 > 0 ∧ cnt ≥ len0 then some out
    else
      match out.get? i with
      | none => none
      | some b =>
        maskCharFwd ignore len0 ch (if ignore.contains b then out else out.set i ch)
          (i + 1) ed (cnt + 1)
  else some out
termination_by (ed - i).toNat
decreasing_by omega

/-- The reverse loop of `maskCharImpl`: `for i := ed; i >= st; i--`, breaking
once `cnt` reaches a positive `Length`.  An out-of-range index access returns
`none` (a Go panic). -/
def maskCharRev (ignore : Str) (len0 : Int) (ch : Nat)
    (out : Str) (i : Int) (st : Nat) (cnt : Int) : Option Str :=
  if i ≥ (st : Int) then
    if len0 > 0 ∧ cnt ≥ len0 then some out
    else
      match out.get? i.toNat with
      | none => none
      | some b =>
        maskCharRev ignore len0 ch (if ignore.contains b then out else out.set i.toNat ch)
          (i - 1) st (cnt + 1)
  else some out
termination_by (i - st + 1).toNat
decreasing_by omega

/-- `maskCharImpl` (mask/mask.go): choose the replacement byte, then run the
forward window `[st, ed)` with `st` from `Offset` and `ed` from `Padding`, or,
when `Reverse` is set, the right-to-left window from `ed = sz - 1 - Offset`
down to `st = Padding`. -/
def maskCharImpl (rule : MaskRuleItem) (input : Str) : Option Str :=
  let ch := maskChByte rule
  let sz := input.length
  if !rule.reverse then
    let st : Nat := if 0 ≤ rule.offset then rule.offset.toNat else 0
    let ed : Int := if 0 ≤ rule.padding then (sz : Int) - rule.padding else (sz : Int)
    maskCharFwd rule.ignoreCharSet rule.length ch input st ed 0
  else
    let ed : Int := if 0 ≤ rule.offset then (sz : Int) - 1 - rule.offset else (sz : Int)
    let st : Nat := if 0 ≤ rule.padding then rule.padding.toNat else 0
    maskCharRev rule.ignoreCharSet rule.length ch input ed st 0

/-- A CHAR rule with `Reverse` set and the default `Offset = -1`. -/
def revDefaultRule : MaskRuleItem :=
  { ruleName := [], maskType := [], value := [], offset := -1, padding := -1,
    length := 0, reverse := true, ignoreCharSet := [] }

/-- Counterexample to C4 as stated: with `Reverse` set and the default
`Offset = -1`, the reverse loop starts at index `sz` and the very first
access `out[sz]` is out of range — the worker panics instead of returning a
same-length string, already on the one-byte input `"a"`. -/
theorem C4_counterexample : maskCharImpl revDefaultRule [97] = none := by
  rw [maskCharImpl]
  simp only [revDefaultRule, maskChByte]
  rw [maskCharRev]
  norm_num

/-- Number of byte positions where two equal-length strings differ. -/
def diffCount : Str → Str → Nat
  | a :: as, b :: bs => (if a = b then 0 else 1) + diffCount as bs
  | _, _ => 0

theorem diffCount_self : ∀ l : Str, diffCount l l = 0 := by
  intro l
  induction l with
  | nil => rfl
  | cons a as ih => simp [diffCount, ih]

theorem diffCount_triangle :
    ∀ (a b c : Str), b.length = a.length →
      diffCount a c ≤ diffCount a b + diffCount b c := by
  intro a
  induction a with
  | nil =>
    intro b c _
    cases c <;> simp [diffCount]
  | cons x as ih =>
    intro b c hb
    cases b with
    | nil => simp at hb
    | cons y bs =>
      cases c with
      | nil => simp [diffCount]
      | cons z cs =>
        simp only [diffCount]
        have hihcc := ih bs cs (by simpa using hb)
        have hstep : (if x = z then 0 else 1) ≤
            (if x = y then 0 else 1) + (if y = z then 0 else 1) := by
          by_cases hxy : x = y
          · subst hxy
            by_cases hyz : x = z
            · subst hyz; simp
            · simp [hyz]
          · by_cases hyz : y = z
            · subst hyz
              simp [hxy]
            · by_cases hxz : x = z <;> simp [hxy, hyz, hxz]
        omega

theorem diffCount_set : ∀ (l : Str) (i : Nat) (ch : Nat), diffCount l (l.set i ch) ≤ 1 := by
  intro l
  induction l with
  | nil => intro i ch; simp [diffCount, List.set]
  | cons a as ih =>
    intro i ch
    cases i with
    | zero =>
      simp only [List.set, diffCount, diffCount_self]
      split <;> omega
    | succ n =>
      simp only [List.set, diffCount, if_pos rfl]
      simpa using ih n ch

theorem lt_length_of_getq_some {l : Str} {j b : Nat} (h : l.get? j = some b) :
    j < l.length := by
  by_contra hc
  rw [List.get?_eq_none.mpr (by omega)] at h
  exact Option.noConfusion h

/-- Full characterization of the forward CHAR loop: it never fails when the
window end is inside the string, preserves length, changes bytes only inside
`[i, ed)`, each changed byte becomes `ch` and was not in the ignore set, and
when `Length` is positive at most `Length - cnt` bytes change. -/
theorem maskCharFwd_spec (ignore : Str) (len0 : Int) (ch : Nat) :
    ∀ (out : Str) (i : Nat) (ed : Int) (cnt : Int), ed ≤ (out.length : Int) →
      ∃ res, maskCharFwd ignore len0 ch out i ed cnt = some res ∧
        res.length = out.length ∧
        (∀ j : Nat, (j < i ∨ ed ≤ (j : Int)) → res.get? j = out.get? j) ∧
        (∀ j : Nat, res.get? j ≠ out.get? j →
          res.get? j = some ch ∧
            ∃ b, out.get? j = some b ∧ ignore.contains b = false) ∧
        (len0 > 0 → (diffCount out res : Int) ≤ max (len0 - cnt) 0) := by
  intro out i ed cnt
  induction out, i, ed, cnt using maskCharFwd.induct ignore len0 ch with
  | case1 out i ed cnt hlt hbreak =>
    intro _
    rw [maskCharFwd, if_pos hlt, if_pos hbreak]
    refine ⟨out, rfl, rfl, fun j _ => rfl, fun j hj => absurd rfl hj, fun hpos => ?_⟩
    rw [diffCount_self]
    simp [le_max_iff]
  | case2 out i ed cnt hlt hbreak hnone =>
    intro hed
    exfalso
    have : i < out.length := by omega
    rw [List.get?_eq_none] at hnone
    omega
  | case3 out i ed cnt hlt hbreak b hsome ih =>
    intro hed
    simp only [dite_eq_ite] at ih
    set out1 := if ignore.contains b then out else out.set i ch with hout1
    have hlen1 : out1.length = out.length := by
      rw [hout1]; split <;> simp [List.length_set]
    obtain ⟨res, hres, hrlen, hunch, hchg, hcnt⟩ := ih (by omega)
    refine ⟨res, ?_, by omega, ?_, ?_, ?_⟩
    · rw [maskCharFwd, if_pos hlt, if_neg hbreak, hsome]
      exact hres
    · intro j hj
      have hji : j ≠ i := by omega
      have h1 : res.get? j = out1.get? j := hunch j (by omega)
      have h2 : out1.get? j = out.get? j := by
        rw [hout1]; split
        · rfl
        · exact List.get?_set_ne ch _ (fun h => hji h.symm)
      rw [h1, h2]
    · intro j hj
      by_cases hji : j = i
      · subst hji
        by_cases hcon : ignore.contains b
        · have h2 : out1 = out := by rw [hout1, if_pos hcon]
          rw [h2] at hchg
          exact hchg j hj
        · have h2 : out1.get? j = some ch := by
            rw [hout1, if_neg hcon]
            exact List.get?_set_eq_of_lt ch (lt_length_of_getq_some hsome)
          have h1 : res.get? j = out1.get? j := hunch j (by omega)
          exact ⟨by rw [h1, h2], b, hsome, by simpa using hcon⟩
      · have h2 : out1.get? j = out.get? j := by
          rw [hout1]; split
          · rfl
          · exact List.get?_set_ne ch _ (fun h => hji h.symm)
        have : res.get? j ≠ out1.get? j := by rw [h2]; exact hj
        have := hchg j this
        rwa [h2] at this
    · intro hpos
      have hc : cnt < len0 := by
        rcases not_and_or.mp hbreak with h | h
        · omega
        · omega
      have ht := diffCount_triangle out out1 res (by omega)
      have h1 : diffCount out out1 ≤ 1 := by
        rw [hout1]; split
        · rw [diffCount_self]; omega
        · exact diffCount_set out i ch
      have h2 := hcnt hpos
      omega
  | case4 out i ed cnt hlt =>
    intro _
    rw [maskCharFwd, if_neg hlt]
    refine ⟨out, rfl, rfl, fun j _ => rfl, fun j hj => absurd rfl hj, fun hpos => ?_⟩
    rw [diffCount_self]
    simp [le_max_iff]

/-- Full characterization of the reverse CHAR loop, mirroring
`maskCharFwd_spec` for the window `[st, i]` traversed right to left. -/
theorem maskCharRev_spec (ignore : Str) (len0 : Int) (ch : Nat) :
    ∀ (out : Str) (i : Int) (st : Nat) (cnt : Int), i < (out.length : Int) →
      ∃ res, maskCharRev ignore len0 ch out i st cnt = some res ∧
        res.length = out.length ∧
        (∀ j : Nat, ((j : Int) < st ∨ i < (j : Int)) → res.get? j = out.get? j) ∧
        (∀ j : Nat, res.get? j ≠ out.get? j →
          res.get? j = some ch ∧
            ∃ b, out.get? j = some b ∧ ignore.contains b = false) ∧
        (len0 > 0 → (diffCount out res : Int) ≤ max (len0 - cnt) 0) := by
  intro out i st cnt
  induction out, i, st, cnt using maskCharRev.induct ignore len0 ch with
  | case1 out i st cnt hge hbreak =>
    intro _
    rw [maskCharRev, if_pos hge, if_pos hbreak]
    refine ⟨out, rfl, rfl, fun j _ => rfl, fun j hj => absurd rfl hj, fun hpos => ?_⟩
    rw [diffCount_self]
    simp [le_max_iff]
  | case2 out i st cnt hge hbreak hnone =>
    intro hlt
    exfalso
    rw [List.get?_eq_none] at hnone
    omega
  | case3 out i st cnt hge hbreak b hsome ih =>
    intro hlt
    simp only [dite_eq_ite] at ih
    set out1 := if ignore.contains b then out else out.set i.toNat ch with hout1
    have hlen1 : out1.length = out.length := by
      rw [hout1]; split <;> simp [List.length_set]
    obtain ⟨res, hres, hrlen, hunch, hchg, hcnt⟩ := ih (by omega)
    refine ⟨res, ?_, by omega, ?_, ?_, ?_⟩
    · rw [maskCharRev, if_pos hge, if_neg hbreak, hsome]
      exact hres
    · intro j hj
      have hji : j ≠ i.toNat := by omega
      have h1 : res.get? j = out1.get? j := hunch j (by omega)
      have h2 : out1.get? j = out.get? j := by
        rw [hout1]; split
        · rfl
        · exact List.get?_set_ne ch _ (fun h => hji h.symm)
      rw [h1, h2]
    · intro j hj
      by_cases hji : j = i.toNat
      · subst hji
        by_cases hcon : ignore.contains b
        · have h2 : out1 = out := by rw [hout1, if_pos hcon]
          rw [h2] at hchg
          exact hchg _ hj
        · have h2 : out1.get? i.toNat = some ch := by
            rw [hout1, if_neg hcon]
            exact List.get?_set_eq_of_lt ch (by omega)
          have h1 : res.get? i.toNat = out1.get? i.toNat := hunch _ (by omega)
          exact ⟨by rw [h1, h2], b, hsome, by simpa using hcon⟩
      · have h2 : out1.get? j = out.get? j := by
          rw [hout1]; split
          · rfl
          · exact List.get?_set_ne ch _ (fun h => hji h.symm)
        have : res.get? j ≠ out1.get? j := by rw [h2]; exact hj
        have := hchg j this
        rwa [h2] at this
    · intro hpos
      have hc : cnt < len0 := by
        rcases not_and_or.mp hbreak with h | h
        · omega
        · omega
      have ht := diffCount_triangle out out1 res (by omega)
      have h1 : diffCount out out1 ≤ 1 := by
        rw [hout1]; split
        · rw [diffCount_self]; omega
        · exact diffCount_set out i.toNat ch
      have h2 := hcnt hpos
      omega
  | case4 out i st cnt hge =>
    intro _
    rw [maskCharRev, if_neg hge]
    refine ⟨out, rfl, rfl, fun j _ => rfl, fun j hj => absurd rfl hj, fun hpos => ?_⟩
    rw [diffCount_self]
    simp [le_max_iff]

/-- C4 amended: the claim holds once `offset ≥ 0` is required whenever
`reverse` is set (the counterexample shows that with `reverse` and the default
`offset = -1` the first index access is out of range).  The worker then
returns a same-length string, changes bytes only inside the window
(`[offset, |text|-padding)` forward, `[padding, |text|-1-offset]` reversed,
with negative bounds replaced by the defaults), changes at most `length` bytes
when `length > 0`, never alters a byte of `ignore_char_set`, and writes
`value[0]` (or `*`) into every changed position. -/
theorem C4_maskChar_amended (rule : MaskRuleItem) (input : Str)
    (hrev : rule.reverse = true → 0 ≤ rule.offset) :
    ∃ out, maskCharImpl rule input = some out ∧
      out.length = input.length ∧
      (∀ j : Nat, out.get? j ≠ input.get? j →
        out.get? j = some (maskChByte rule) ∧
          ∃ b, input.get? j = some b ∧ rule.ignoreCharSet.contains b = false) ∧
      (∀ j : Nat, out.get? j ≠ input.get? j →
        if rule.reverse = false then
          (if 0 ≤ rule.offset then rule.offset.toNat else 0) ≤ j ∧
            (j : Int) < (if 0 ≤ rule.padding then (input.length : Int) - rule.padding
              else (input.length : Int))
        else
          (if 0 ≤ rule.padding then rule.padding.toNat else 0) ≤ j ∧
            (j : Int) ≤ (input.length : Int) - 1 - rule.offset) ∧
      (rule.length > 0 → (diffCount input out : Int) ≤ rule.length) := by
  rcases hb : rule.reverse with _ | _
  · -- forward branch
    obtain ⟨res, hres, hrlen, hunch, hchg, hcnt⟩ :=
      maskCharFwd_spec rule.ignoreCharSet rule.length (maskChByte rule) input
        (if 0 ≤ rule.offset then rule.offset.toNat else 0)
        (if 0 ≤ rule.padding then (input.length : Int) - rule.padding else (input.length : Int))
        0 (by split <;> omega)
    refine ⟨res, ?_, hrlen, hchg, ?_, ?_⟩
    · rw [maskCharImpl, hb]
      simpa using hres
    · intro j hj
      by_contra hcon
      rw [if_pos rfl, not_and_or] at hcon
      exact hj (hunch j (by omega))
    · intro hpos
      have := hcnt hpos
      omega
  · -- reverse branch
    have hoff := hrev hb
    obtain ⟨res, hres, hrlen, hunch, hchg, hcnt⟩ :=
      maskCharRev_spec rule.ignoreCharSet rule.length (maskChByte rule) input
        ((input.length : Int) - 1 - rule.offset)
        (if 0 ≤ rule.padding then rule.padding.toNat else 0)
        0 (by omega)
    refine ⟨res, ?_, hrlen, hchg, ?_, ?_⟩
    · rw [maskCharImpl, hb]
      simp only [Bool.not_true, Bool.false_eq_true, if_false, if_pos hoff]
      exact hres
    · intro j hj
      by_contra hcon
      rw [if_neg (by simp), not_and_or] at hcon
      exact hj (hunch j (by omega))
    · intro hpos
      have := hcnt hpos
      omega

/-- The CHINAPHONE-style CHAR rule of the default config: `offset = 3`,
`padding = 2`. -/
def chinaPhoneRule : MaskRuleItem :=
  { ruleName := [], maskType := [], value := [], offset := 3, padding := 2,
    length := 0, reverse := false, ignoreCharSet := [] }

/-- Witness for C4 amended, at the CHINAPHONE rule on the 11-byte string
`18612341234`. -/
theorem C4_maskChar_amended_witness :
    ∃ out, maskCharImpl chinaPhoneRule [49, 56, 54, 49, 50, 51, 52, 49, 50, 51, 52] = some out ∧
      out.length = ([49, 56, 54, 49, 50, 51, 52, 49, 50, 51, 52] : Str).length ∧
      (∀ j : Nat, out.get? j ≠ ([49, 56, 54, 49, 50, 51, 52, 49, 50, 51, 52] : Str).get? j →
        out.get? j = some (maskChByte chinaPhoneRule) ∧
          ∃ b, ([49, 56, 54, 49, 50, 51, 52, 49, 50, 51, 52] : Str).get? j = some b ∧
            chinaPhoneRule.ignoreCharSet.contains b = false) ∧
      (∀ j : Nat, out.get? j ≠ ([49, 56, 54, 49, 50, 51, 52, 49, 50, 51, 52] : Str).get? j →
        if chinaPhoneRule.reverse = false then
          (if 0 ≤ chinaPhoneRule.offset then chinaPhoneRule.offset.toNat else 0) ≤ j ∧
            (j : Int) < (if 0 ≤ chinaPhoneRule.padding then
              (([49, 56, 54, 49, 50, 51, 52, 49, 50, 51, 52] : Str).length : Int) -
                chinaPhoneRule.padding
              else (([49, 56, 54, 49, 50, 51, 52, 49, 50, 51, 52] : Str).length : Int))
        else
          (if 0 ≤ chinaPhoneRule.padding then chinaPhoneRule.padding.toNat else 0) ≤ j ∧
            (j : Int) ≤ (([49, 56, 54, 49, 50, 51, 52, 49, 50, 51, 52] : Str).length : Int) -
              1 - chinaPhoneRule.offset) ∧
      (chinaPhoneRule.length > 0 →
        (diffCount [49, 56, 54, 49, 50, 51, 52, 49, 50, 51, 52] out : Int) ≤
          chinaPhoneRule.length) :=
  C4_maskChar_amended chinaPhoneRule [49, 56, 54, 49, 50, 51, 52, 49, 50, 51, 52]
    (by intro h; simp [chinaPhoneRule] at h)

/-! ## C1: merge, de-duplication and ordering (`mergeResults`, sdk_detect.go) -/

/-- `ResultList.Less` (sdk_detect.go): strict lexicographic comparison on
`(ByteStart, ByteEnd, RuleID)`. -/
def lessR (x y : DetectResult) : Bool :=
  if x.byteStart < y.byteStart then true
  else if x.byteStart = y.byteStart then
    if x.byteEnd < y.byteEnd then true
    else if x.byteEnd = y.byteEnd then decide (x.ruleID < y.ruleID)
    else false
  else false

/-- `ResultList.Contain` (sdk_detect.go): same key and `x`'s span covers
`y`'s span. -/
def containR (x y : DetectResult) : Bool :=
  x.key == y.key && decide (x.byteStart ≤ y.byteStart) && decide (y.byteEnd ≤ x.byteEnd)

/-- `ResultList.Equal` (sdk_detect.go): same `(ByteStart, ByteEnd, Key)`. -/
def equalR (x y : DetectResult) : Bool :=
  decide (x.byteStart = y.byteStart) && decide (y.byteEnd = x.byteEnd) && x.key == y.key

/-- The sort order used by `sort.Sort(ResultList(total))`: `leR x y` holds
when `x` need not come strictly after `y`. -/
def leR (x y : DetectResult) : Prop := lessR y x = false

instance : DecidableRel leR := fun x y => inferInstanceAs (Decidable (lessR y x = false))

theorem lessR_iff (x y : DetectResult) : lessR x y = true ↔
    (x.byteStart < y.byteStart ∨ (x.byteStart = y.byteStart ∧
      (x.byteEnd < y.byteEnd ∨ (x.byteEnd = y.byteEnd ∧ x.ruleID < y.ruleID)))) := by
  unfold lessR
  split_ifs <;> simp <;> omega

/-- The `(ByteStart, ByteEnd, RuleID)` sort key, as a lexicographic triple. -/
def key3 (x : DetectResult) : Lex (Nat × Lex (Nat × Int)) :=
  toLex (x.byteStart, toLex (x.byteEnd, x.ruleID))

theorem lessR_iff_lt (x y : DetectResult) : lessR x y = true ↔ key3 x < key3 y := by
  rw [lessR_iff]
  unfold key3
  rw [Prod.Lex.lt_iff]
  constructor
  · rintro (h | ⟨h1, h2⟩)
    · exact Or.inl h
    · refine Or.inr ⟨h1, ?_⟩
      rw [Prod.Lex.lt_iff]
      exact h2
  · rintro (h | ⟨h1, h2⟩)
    · exact Or.inl h
    · rw [Prod.Lex.lt_iff] at h2
      exact Or.inr ⟨h1, h2⟩

theorem leR_iff_le (x y : DetectResult) : leR x y ↔ key3 x ≤ key3 y := by
  unfold leR
  rw [Bool.eq_false_iff, Ne, lessR_iff_lt, not_lt]

instance : IsTotal DetectResult leR :=
  ⟨fun x y => by rw [leR_iff_le, leR_iff_le]; exact le_total _ _⟩

instance : IsTrans DetectResult leR :=
  ⟨fun x y z h1 h2 => by
    rw [leR_iff_le] at *
    exact le_trans h1 h2⟩

/-- One non-breaking iteration body of the inner loop of `mergeResults`
(sdk_detect.go): unmark `j` on `Contain(i, j)`, then unmark `i` on
`Contain(j, i)`. -/
def innerStep (total : List DetectResult) (mark : List Bool) (i j : Nat) : List Bool :=
  let mark1 := if containR (total.getD i default) (total.getD j default)
    then mark.set j false else mark
  if containR (total.getD j default) (total.getD i default)
    then mark1.set i false else mark1

/-- The inner `for j := i + 1; ...` loop of `mergeResults` (sdk_detect.go):
skip unmarked `j`, unmark `i` and break on `Equal(i, j)`, otherwise run
`innerStep` and continue. -/
def innerLoop (total : List DetectResult) (mark : List Bool) (i j : Nat) : List Bool :=
  if j < total.length then
    if mark.getD j false = false then innerLoop total mark i (j + 1)
    else if equalR (total.getD i default) (total.getD j default) then mark.set i false
    else innerLoop total (innerStep total mark i j) i (j + 1)
  else mark
termination_by total.length - j

/-- The outer `for i := 0; ...` loop of `mergeResults` (sdk_detect.go). -/
def outerLoop (total : List DetectResult) (mark : List Bool) (i : Nat) : List Bool :=
  if i < total.length then
    if mark.getD i false = false then outerLoop total mark (i + 1)
    else outerLoop total (innerLoop total mark i (i + 1)) (i + 1)
  else mark
termination_by total.length - i

/-- The final collection loop of `mergeResults`: keep `total[i]` whenever
`mark[i]` is still set. -/
def collectMarked (total : List DetectResult) (mark : List Bool) (i : Nat) :
    List DetectResult :=
  if i < total.length then
    (if mark.getD i false then [total.getD i default] else []) ++
      collectMarked total mark (i + 1)
  else []
termination_by total.length - i

/-- `mergeResults` (sdk_detect.go): concatenate the two result lists, sort by
`ResultList.Less` (the Go `sort.Sort` contract — some `Less`-sorted
permutation — realized here by insertion sort), then eliminate exact
duplicates and contained spans with the double mark loop. -/
def mergeResults (a b : List DetectResult) : List DetectResult :=
  let total := if a.length = 0 then b else if b.length = 0 then a else a ++ b
  if total.length = 0 then total
  else
    let sorted := List.insertionSort leR total
    collectMarked sorted (outerLoop sorted (List.replicate sorted.length true) 0) 0

theorem markGetD_set_self (m : List Bool) (i : Nat) :
    (m.set i false).getD i false = false := by
  rcases Nat.lt_or_ge i m.length with h | h
  · rw [List.getD_eq_get?, List.get?_set_eq_of_lt _ h]
    rfl
  · rw [List.set_eq_of_length_le h, List.getD_eq_get?, List.get?_eq_none.mpr h]
    rfl

theorem markGetD_set_ne (m : List Bool) (v : Bool) {i j : Nat} (h : i ≠ j) :
    (m.set i v).getD j false = m.getD j false := by
  rw [List.getD_eq_get?, List.getD_eq_get?, List.get?_set_ne _ _ h]

theorem markGetD_set_mono (m : List Bool) {i k : Nat}
    (h : (m.set i false).getD k false = true) : m.getD k false = true := by
  rcases eq_or_ne i k with rfl | hne
  · rw [markGetD_set_self] at h
    exact absurd h (by simp)
  · rwa [markGetD_set_ne _ _ hne] at h

theorem innerStep_mono (total : List DetectResult) (mark : List Bool) (i j k : Nat)
    (h : (innerStep total mark i j).getD k false = true) : mark.getD k false = true := by
  simp only [innerStep] at h
  split at h
  · have h2 := markGetD_set_mono _ h
    split at h2
    · exact markGetD_set_mono mark h2
    · exact h2
  · split at h
    · exact markGetD_set_mono mark h
    · exact h

theorem innerLoop_mono (total : List DetectResult) :
    ∀ (mark : List Bool) (i j k : Nat),
      (innerLoop total mark i j).getD k false = true → mark.getD k false = true := by
  intro mark i j
  induction mark, i, j using innerLoop.induct total with
  | case1 mark i j hj hmj ih =>
    intro k h
    rw [innerLoop, if_pos hj, if_pos hmj] at h
    exact ih k h
  | case2 mark i j hj hmj heq =>
    intro k h
    rw [innerLoop, if_pos hj, if_neg (by simpa using hmj), if_pos heq] at h
    exact markGetD_set_mono mark h
  | case3 mark i j hj hmj heq ih =>
    intro k h
    rw [innerLoop, if_pos hj, if_neg (by simpa using hmj), if_neg (by simpa using heq)] at h
    exact innerStep_mono total mark i j k (ih k h)
  | case4 mark i j hj =>
    intro k h
    rwa [innerLoop, if_neg hj] at h

theorem outerLoop_mono (total : List DetectResult) :
    ∀ (mark : List Bool) (p k : Nat),
      (outerLoop total mark p).getD k false = true → mark.getD k false = true := by
  intro mark p
  induction mark, p using outerLoop.induct total with
  | case1 mark p hp hmp ih =>
    intro k h
    rw [outerLoop, if_pos hp, if_pos hmp] at h
    exact ih k h
  | case2 mark p hp hmp ih =>
    intro k h
    rw [outerLoop, if_pos hp, if_neg (by simpa using hmp)] at h
    exact innerLoop_mono total mark p (p + 1) k (ih k h)
  | case3 mark p hp =>
    intro k h
    rwa [outerLoop, if_neg hp] at h

theorem innerStep_unmark_j (total : List DetectResult) (mark : List Bool) (i j : Nat)
    (hne : i ≠ j)
    (hc : containR (total.getD i default) (total.getD j default) = true) :
    (innerStep total mark i j).getD j false = false := by
  simp only [innerStep]
  rw [if_pos hc]
  split
  · rw [markGetD_set_ne _ _ hne]
    exact markGetD_set_self mark j
  · exact markGetD_set_self mark j

theorem innerStep_unmark_i (total : List DetectResult) (mark : List Bool) (i j : Nat)
    (hc : containR (total.getD j default) (total.getD i default) = true) :
    (innerStep total mark i j).getD i false = false := by
  simp only [innerStep]
  rw [if_pos hc]
  exact markGetD_set_self _ i

/-- If `i` and a later `q` are both still marked after the inner loop has run
from `j ≤ q`, then `total[i]` and `total[q]` are neither equal nor mutually
containing. -/
theorem innerLoop_spec (total : List DetectResult) :
    ∀ (mark : List Bool) (i j : Nat), ∀ q : Nat, i < q → j ≤ q → q < total.length →
      (innerLoop total mark i j).getD i false = true →
      (innerLoop total mark i j).getD q false = true →
      equalR (total.getD i default) (total.getD q default) = false ∧
      containR (total.getD i default) (total.getD q default) = false ∧
      containR (total.getD q default) (total.getD i default) = false := by
  intro mark i j
  induction mark, i, j using innerLoop.induct total with
  | case1 mark i j hj hmj ih =>
    intro q hiq hjq hq hi hq2
    rw [innerLoop, if_pos hj, if_pos hmj] at hi hq2
    rcases eq_or_ne q j with rfl | hne
    · have := innerLoop_mono total mark i (q + 1) q hq2
      rw [hmj] at this
      exact absurd this (by simp)
    · exact ih q hiq (by omega) hq hi hq2
  | case2 mark i j hj hmj heq =>
    intro q hiq hjq hq hi hq2
    rw [innerLoop, if_pos hj, if_neg (by simpa using hmj), if_pos heq] at hi
    rw [markGetD_set_self] at hi
    exact absurd hi (by simp)
  | case3 mark i j hj hmj heq ih =>
    intro q hiq hjq hq hi hq2
    rw [innerLoop, if_pos hj, if_neg (by simpa using hmj), if_neg (by simpa using heq)]
      at hi hq2
    rcases eq_or_ne q j with rfl | hne
    · refine ⟨by simpa using heq, ?_, ?_⟩
      · by_contra hc
        rw [Bool.not_eq_false] at hc
        have hj0 := innerStep_unmark_j total mark i q (by omega) hc
        have := innerLoop_mono total _ i (q + 1) q hq2
        rw [hj0] at this
        exact absurd this (by simp)
      · by_contra hc
        rw [Bool.not_eq_false] at hc
        have hi0 := innerStep_unmark_i total mark i q hc
        have := innerLoop_mono total _ i (q + 1) i hi
        rw [hi0] at this
        exact absurd this (by simp)
    · exact ih q hiq (by omega) hq hi hq2
  | case4 mark i j hj =>
    intro q hiq hjq hq hi hq2
    omega

/-- If `i < q` are both still marked after the outer loop has run from
`p ≤ i`, then `total[i]` and `total[q]` are neither equal nor mutually
containing. -/
theorem outerLoop_spec (total : List DetectResult) :
    ∀ (mark : List Bool) (p : Nat), ∀ i q : Nat, p ≤ i → i < q → q < total.length →
      (outerLoop total mark p).getD i false = true →
      (outerLoop total mark p).getD q false = true →
      equalR (total.getD i default) (total.getD q default) = false ∧
      containR (total.getD i default) (total.getD q default) = false ∧
      containR (total.getD q default) (total.getD i default) = false := by
  intro mark p
  induction mark, p using outerLoop.induct total with
  | case1 mark p hp hmp ih =>
    intro i q hpi hiq hq hi hq2
    rw [outerLoop, if_pos hp, if_pos hmp] at hi hq2
    rcases eq_or_ne i p with rfl | hne
    · have := outerLoop_mono total mark (i + 1) i hi
      rw [hmp] at this
      exact absurd this (by simp)
    · exact ih i q (by omega) hiq hq hi hq2
  | case2 mark p hp hmp ih =>
    intro i q hpi hiq hq hi hq2
    rw [outerLoop, if_pos hp, if_neg (by simpa using hmp)] at hi hq2
    rcases eq_or_ne i p with rfl | hne
    · have h1 := outerLoop_mono total _ (i + 1) i hi
      have h2 := outerLoop_mono total _ (i + 1) q hq2
      exact innerLoop_spec total mark i (i + 1) q hiq (by omega) hq h1 h2
    · exact ih i q (by omega) hiq hq hi hq2
  | case3 mark p hp =>
    intro i q hpi hiq hq hi hq2
    omega

theorem mem_collectMarked (total : List DetectResult) (mark : List Bool) :
    ∀ (i : Nat) (x : DetectResult), x ∈ collectMarked total mark i →
      ∃ q, i ≤ q ∧ q < total.length ∧ mark.getD q false = true ∧
        x = total.getD q default := by
  intro i
  induction i using collectMarked.induct total mark with
  | case1 i hi ih =>
    intro x hx
    rw [collectMarked, if_pos hi] at hx
    rcases List.mem_append.mp hx with hx | hx
    · split at hx
      · next hm => exact ⟨i, le_refl _, hi, hm, by simpa using hx⟩
      · simp at hx
    · obtain ⟨q, h1, h2, h3, h4⟩ := ih x hx
      exact ⟨q, by omega, h2, h3, h4⟩
  | case2 i hi =>
    intro x hx
    rw [collectMarked, if_neg hi] at hx
    simp at hx

theorem pairwise_collectMarked (total : List DetectResult) (mark : List Bool)
    (P : DetectResult → DetectResult → Prop) :
    ∀ i : Nat, (∀ p q : Nat, i ≤ p → p < q → q < total.length →
        mark.getD p false = true → mark.getD q false = true →
        P (total.getD p default) (total.getD q default)) →
      List.Pairwise P (collectMarked total mark i) := by
  intro i
  induction i using collectMarked.induct total mark with
  | case1 i hi ih =>
    intro hP
    rw [collectMarked, if_pos hi]
    split
    · next hmi =>
      simp only [List.singleton_append]
      refine List.Pairwise.cons ?_ (ih ?_)
      · intro y hy
        obtain ⟨q, hq1, hq2, hq3, rfl⟩ := mem_collectMarked total mark (i + 1) y hy
        exact hP i q (le_refl _) (by omega) hq2 hmi hq3
      · intro p q hp hpq hq h1 h2
        exact hP p q (by omega) hpq hq h1 h2
    · simp only [List.nil_append]
      exact ih (fun p q hp hpq hq h1 h2 => hP p q (by omega) hpq hq h1 h2)
  | case2 i hi =>
    intro hP
    rw [collectMarked, if_neg hi]
    exact List.Pairwise.nil

theorem sorted_getD {l : List DetectResult} (h : List.Sorted leR l)
    {p q : Nat} (hpq : p < q) (hq : q < l.length) :
    leR (l.getD p default) (l.getD q default) := by
  have hp : p < l.length := lt_trans hpq hq
  rw [List.getD_eq_get l default hp, List.getD_eq_get l default hq]
  exact List.pairwise_iff_get.mp h ⟨p, hp⟩ ⟨q, hq⟩ hpq

/-- The pair property of the claim: sorted (`x` need not come after `y`), not
equal on `(byte_start, byte_end, key)`, and neither result contains the
other's span with an identical key. -/
def GoodPair (x y : DetectResult) : Prop :=
  leR x y ∧ equalR x y = false ∧ containR x y = false ∧ containR y x = false

theorem mergeCore_pairwise (total : List DetectResult) :
    List.Pairwise GoodPair (if total.length = 0 then total
      else collectMarked (List.insertionSort leR total)
        (outerLoop (List.insertionSort leR total)
          (List.replicate (List.insertionSort leR total).length true) 0) 0) := by
  split
  · next h0 =>
    rw [List.length_eq_zero] at h0
    rw [h0]
    exact List.Pairwise.nil
  · apply pairwise_collectMarked
    intro p q hp hpq hq h1 h2
    have hOuter := outerLoop_spec _ _ 0 p q (Nat.zero_le _) hpq hq h1 h2
    exact ⟨sorted_getD (List.sorted_insertionSort leR _) hpq hq,
      hOuter.1, hOuter.2.1, hOuter.2.2⟩

theorem mergeResults_pairwise (a b : List DetectResult) :
    List.Pairwise GoodPair (mergeResults a b) := by
  simp only [mergeResults]
  exact mergeCore_pairwise _

theorem mergeCore_mem {total : List DetectResult} {x : DetectResult}
    (hx : x ∈ (if total.length = 0 then total
      else collectMarked (List.insertionSort leR total)
        (outerLoop (List.insertionSort leR total)
          (List.replicate (List.insertionSort leR total).length true) 0) 0)) :
    x ∈ total := by
  split at hx
  · exact hx
  · obtain ⟨q, _, hq, _, rfl⟩ := mem_collectMarked _ _ 0 _ hx
    have hmem : (List.insertionSort leR total).getD q default ∈
        List.insertionSort leR total := by
      rw [List.getD_eq_get _ default hq]
      exact List.get_mem _ _ _
    exact (List.perm_insertionSort leR _).mem_iff.mp hmem

theorem mem_mergeResults {a b : List DetectResult} {x : DetectResult}
    (hx : x ∈ mergeResults a b) : x ∈ a ++ b := by
  simp only [mergeResults] at hx
  have htot := mergeCore_mem hx
  split at htot
  · exact List.mem_append.mpr (Or.inr htot)
  · split at htot
    · exact List.mem_append.mpr (Or.inl htot)
    · exact htot

theorem equalR_iff (x y : DetectResult) : equalR x y = true ↔
    (x.byteStart = y.byteStart ∧ y.byteEnd = x.byteEnd ∧ x.key = y.key) := by
  simp [equalR, Bool.and_eq_true, decide_eq_true_eq, beq_iff_eq, and_assoc]

theorem containR_iff (x y : DetectResult) : containR x y = true ↔
    (x.key = y.key ∧ x.byteStart ≤ y.byteStart ∧ y.byteEnd ≤ x.byteEnd) := by
  simp [containR, Bool.and_eq_true, decide_eq_true_eq, beq_iff_eq, and_assoc]

/-- Two results in strictly separated, non-empty spans always form a good
pair, whatever their keys and rule ids. -/
theorem GoodPair_separated {x y : DetectResult} (h1 : x.byteEnd ≤ y.byteStart)
    (h2 : x.byteStart < x.byteEnd) (h3 : y.byteStart < y.byteEnd) : GoodPair x y := by
  refine ⟨?_, ?_, ?_, ?_⟩
  · unfold leR
    rw [Bool.eq_false_iff]
    intro hc
    rw [lessR_iff] at hc
    omega
  · rw [Bool.eq_false_iff]
    intro hc
    rw [equalR_iff] at hc
    omega
  · rw [Bool.eq_false_iff]
    intro hc
    rw [containR_iff] at hc
    omega
  · rw [Bool.eq_false_iff]
    intro hc
    rw [containR_iff] at hc
    omega

/-- The per-result offset shift applied by `aJustResultPos`. -/
def shiftR (c : Nat) (r : DetectResult) : DetectResult :=
  { r with byteStart := r.byteStart + c, byteEnd := r.byteEnd + c }

@[simp] theorem shiftR_byteStart (c : Nat) (r : DetectResult) :
    (shiftR c r).byteStart = r.byteStart + c := rfl

@[simp] theorem shiftR_byteEnd (c : Nat) (r : DetectResult) :
    (shiftR c r).byteEnd = r.byteEnd + c := rfl

@[simp] theorem shiftR_key (c : Nat) (r : DetectResult) :
    (shiftR c r).key = r.key := rfl

@[simp] theorem shiftR_ruleID (c : Nat) (r : DetectResult) :
    (shiftR c r).ruleID = r.ruleID := rfl

theorem GoodPair_shift {x y : DetectResult} (c : Nat) (h : GoodPair x y) :
    GoodPair (shiftR c x) (shiftR c y) := by
  obtain ⟨hle, heq, hc1, hc2⟩ := h
  refine ⟨?_, ?_, ?_, ?_⟩
  · unfold leR at *
    rw [Bool.eq_false_iff] at *
    intro hc
    apply hle
    rw [lessR_iff] at hc ⊢
    simp only [shiftR_byteStart, shiftR_byteEnd, shiftR_key, shiftR_ruleID] at hc
    omega
  · rw [Bool.eq_false_iff] at *
    intro hc
    apply heq
    rw [equalR_iff] at hc ⊢
    simp only [shiftR_byteStart, shiftR_byteEnd, shiftR_key, shiftR_ruleID] at hc
    exact ⟨by omega, by omega, hc.2.2⟩
  · rw [Bool.eq_false_iff] at *
    intro hc
    apply hc1
    rw [containR_iff] at hc ⊢
    simp only [shiftR_byteStart, shiftR_byteEnd, shiftR_key, shiftR_ruleID] at hc
    exact ⟨hc.1, by omega, by omega⟩
  · rw [Bool.eq_false_iff] at *
    intro hc
    apply hc2
    rw [containR_iff] at hc ⊢
    simp only [shiftR_byteStart, shiftR_byteEnd, shiftR_key, shiftR_ruleID] at hc
    exact ⟨hc.1, by omega, by omega⟩

/-- The per-result `MaskText` update of `maskResults`. -/
def withMask (maskFn : DetectResult → Str) (r : DetectResult) : DetectResult :=
  { r with maskText := maskFn r }

@[simp] theorem withMask_byteStart (maskFn : DetectResult → Str) (r : DetectResult) :
    (withMask maskFn r).byteStart = r.byteStart := rfl

@[simp] theorem withMask_byteEnd (maskFn : DetectResult → Str) (r : DetectResult) :
    (withMask maskFn r).byteEnd = r.byteEnd := rfl

/-- `maskResults` (sdk_detect.go): each result's `MaskText` is filled from the
mask worker bound to its rule (or its own `Text` when no worker is bound);
the bound worker's output depends only on the result, which the abstract
`maskFn` captures. -/
def maskResults (maskFn : DetectResult → Str) (results : List DetectResult) :
    List DetectResult :=
  results.map (withMask maskFn)

theorem maskResults_pairwise (maskFn : DetectResult → Str) {l : List DetectResult}
    (h : List.Pairwise GoodPair l) :
    List.Pairwise GoodPair (maskResults maskFn l) := by
  unfold maskResults
  rw [List.pairwise_map]
  exact h.imp (fun hxy => hxy)

/-- `aJustResultPos` (sdk_detect.go): shift every result by the block's
starting byte position. -/
def aJustResultPos (results : List DetectResult) (currPos : Nat) : List DetectResult :=
  if currPos > 0 then results.map (shiftR currPos) else results

theorem aJust_pairwise {l : List DetectResult} (c : Nat)
    (h : List.Pairwise GoodPair l) : List.Pairwise GoodPair (aJustResultPos l c) := by
  unfold aJustResultPos
  split
  · rw [List.pairwise_map]
    exact h.imp (GoodPair_shift c)
  · exact h

/-- One newline-delimited block of `detectImpl` (sdk_detect.go): the raw
results of `detectBytes` and `detectKVList` on the preprocessed line (the
regex and dictionary detectors are abstracted as arbitrary result lists), and
the byte length of the line. -/
structure LineBlock where
  rawValue : List DetectResult
  rawKV : List DetectResult
  blockLen : Nat

/-- `detectProcess` (sdk_detect.go): merge the byte results and the KV
results of one line. -/
def detectProcessModel (blk : LineBlock) : List DetectResult :=
  mergeResults blk.rawValue blk.rawKV

/-- `detectPost` (sdk_detect.go): shift to global offsets, then fill masks. -/
def detectPostModel (maskFn : DetectResult → Str) (results : List DetectResult)
    (currPos : Nat) : List DetectResult :=
  maskResults maskFn (aJustResultPos results currPos)

/-- The line loop of `detectImpl` (sdk_detect.go), accumulating the byte
position of each block's start. -/
def detectImplLoop (maskFn : DetectResult → Str) :
    List LineBlock → Nat → List DetectResult
  | [], _ => []
  | blk :: rest, currPos =>
    detectPostModel maskFn (detectProcessModel blk) currPos ++
      detectImplLoop maskFn rest (currPos + blk.blockLen)

/-- `detectImpl` (sdk_detect.go): run the line loop from position 0. -/
def detectImplModel (maskFn : DetectResult → Str) (blocks : List LineBlock) :
    List DetectResult :=
  detectImplLoop maskFn blocks 0

/-- `detectMapImpl` (sdk_detect.go): collect all detectors' results, merge
them against the empty list, and fill masks. -/
def detectMapImplModel (maskFn : DetectResult → Str) (raw : List DetectResult) :
    List DetectResult :=
  maskResults maskFn (mergeResults raw [])

theorem detectPost_bounds (maskFn : DetectResult → Str) (blk : LineBlock) (currPos : Nat)
    (hblk : ∀ r ∈ blk.rawValue ++ blk.rawKV,
      r.byteStart < r.byteEnd ∧ r.byteEnd ≤ blk.blockLen) :
    ∀ x ∈ detectPostModel maskFn (detectProcessModel blk) currPos,
      currPos ≤ x.byteStart ∧ x.byteStart < x.byteEnd ∧
        x.byteEnd ≤ currPos + blk.blockLen := by
  intro x hx
  unfold detectPostModel maskResults at hx
  rw [List.mem_map] at hx
  obtain ⟨y, hy, rfl⟩ := hx
  unfold aJustResultPos at hy
  split at hy
  · rw [List.mem_map] at hy
    obtain ⟨z, hz, rfl⟩ := hy
    unfold detectProcessModel at hz
    have hb := hblk z (mem_mergeResults hz)
    refine ⟨?_, ?_, ?_⟩ <;>
      simp only [withMask_byteStart, withMask_byteEnd, shiftR_byteStart, shiftR_byteEnd] <;>
      omega
  · next hpos =>
    unfold detectProcessModel at hy
    have hb := hblk y (mem_mergeResults hy)
    refine ⟨?_, ?_, ?_⟩ <;>
      simp only [withMask_byteStart, withMask_byteEnd] <;> omega

theorem detectImplLoop_bounds (maskFn : DetectResult → Str) :
    ∀ (blocks : List LineBlock) (currPos : Nat),
      (∀ blk ∈ blocks, ∀ r ∈ blk.rawValue ++ blk.rawKV,
        r.byteStart < r.byteEnd ∧ r.byteEnd ≤ blk.blockLen) →
      ∀ x ∈ detectImplLoop maskFn blocks currPos,
        currPos ≤ x.byteStart ∧ x.byteStart < x.byteEnd := by
  intro blocks
  induction blocks with
  | nil =>
    intro currPos _ x hx
    simp [detectImplLoop] at hx
  | cons blk rest ih =>
    intro currPos hyp x hx
    rw [detectImplLoop] at hx
    rcases List.mem_append.mp hx with hx | hx
    · have := detectPost_bounds maskFn blk currPos (hyp blk (by simp)) x hx
      exact ⟨this.1, this.2.1⟩
    · have := ih (currPos + blk.blockLen) (fun b hb => hyp b (by simp [hb])) x hx
      exact ⟨by omega, this.2⟩

theorem detectImplLoop_pairwise (maskFn : DetectResult → Str) :
    ∀ (blocks : List LineBlock) (currPos : Nat),
      (∀ blk ∈ blocks, ∀ r ∈ blk.rawValue ++ blk.rawKV,
        r.byteStart < r.byteEnd ∧ r.byteEnd ≤ blk.blockLen) →
      List.Pairwise GoodPair (detectImplLoop maskFn blocks currPos) := by
  intro blocks
  induction blocks with
  | nil =>
    intro currPos _
    simp [detectImplLoop]
  | cons blk rest ih =>
    intro currPos hyp
    rw [detectImplLoop, List.pairwise_append]
    refine ⟨?_, ih _ (fun b hb => hyp b (by simp [hb])), ?_⟩
    · exact maskResults_pairwise _ (aJust_pairwise _ (mergeResults_pairwise _ _))
    · intro x hx y hy
      have hxb := detectPost_bounds maskFn blk currPos (hyp blk (by simp)) x hx
      have hyb := detectImplLoop_bounds maskFn rest (currPos + blk.blockLen)
        (fun b hb => hyp b (by simp [hb])) y hy
      exact GoodPair_separated (by omega) (by omega) (by omega)

/-- C1: DetectMap's output (`detectMapImpl`: merge then mask) and Detect's
output (`detectImpl`: per-line merge, shift, mask, concatenation — under the
spec's own result invariant `byte_start < byte_end ≤ |line|` for raw detector
results) are sorted ascending by `(byte_start, byte_end, rule_id)`, contain no
two results equal on `(byte_start, byte_end, key)`, and contain no pair with
identical key where one span contains the other. -/
theorem C1_merge_invariants :
    (∀ (maskFn : DetectResult → Str) (raw : List DetectResult),
      List.Pairwise GoodPair (detectMapImplModel maskFn raw)) ∧
    (∀ (maskFn : DetectResult → Str) (blocks : List LineBlock),
      (∀ blk ∈ blocks, ∀ r ∈ blk.rawValue ++ blk.rawKV,
        r.byteStart < r.byteEnd ∧ r.byteEnd ≤ blk.blockLen) →
      List.Pairwise GoodPair (detectImplModel maskFn blocks)) := by
  constructor
  · intro maskFn raw
    exact maskResults_pairwise _ (mergeResults_pairwise _ _)
  · intro maskFn blocks hyp
    exact detectImplLoop_pairwise maskFn blocks 0 hyp

/-- A concrete raw VALUE result for the C1 witness. -/
def c1ResA : DetectResult :=
  { ruleID := 7, text := [97], maskText := [], resultType := [], key := [],
    byteStart := 0, byteEnd := 1 }

/-- A concrete raw KV result for the C1 witness. -/
def c1ResB : DetectResult :=
  { ruleID := 3, text := [98], maskText := [], resultType := [], key := [107],
    byteStart := 1, byteEnd := 2 }

/-- Witness for C1: a two-line scan, each line holding one raw in-bounds
result. -/
theorem C1_merge_invariants_witness :
    List.Pairwise GoodPair (detectImplModel (fun r => r.text)
      [{ rawValue := [c1ResA], rawKV := [], blockLen := 2 },
       { rawValue := [], rawKV := [c1ResB], blockLen := 4 }]) := by
  apply C1_merge_invariants.2
  intro blk hblk r hr
  fin_cases hblk <;> simp_all [c1ResA, c1ResB]

/-! ## C10: `getLastKey` on an empty key (detector, `doDetectKV`) -/

/-- The `VALUE` result-type string constant. -/
def ResultTypeValue : Str := [86, 65, 76, 85, 69]

/-- The `KV` result-type string constant. -/
def ResultTypeKv : Str := [75, 86]

/-- Go slicing `s[lo:hi]` with possibly negative computed bounds: valid only
for `0 <= lo <= hi <= len(s)`, a panic (`none`) otherwise. -/
def goSlice (s : Str) (lo hi : Int) : Option Str :=
  if 0 ≤ lo ∧ lo ≤ hi ∧ hi ≤ (s.length : Int) then
    some ((s.drop lo.toNat).take (hi - lo).toNat)
  else none

/-- `strings.LastIndexByte`: the largest index holding `b`, or `-1`. -/
def lastIndexByte (s : Str) (b : Nat) : Int :=
  match s.reverse.findIdx? (fun c => c == b) with
  | some i => (s.length : Int) - 1 - i
  | none => -1

/-- `getLastKey` (detector.go).  The source immediately evaluates
`path[sz-1]`; on the empty path this indexes `path[-1]`, a Go runtime panic,
modelled as `none`.  The `]` branch slices `path[st+1:ed]`, which also panics
when no `[` occurs (`ed = -1`). -/
def getLastKey (path : Str) : Option (Str × Bool) :=
  match path.length with
  | 0 => none
  | Nat.succ _ =>
    if path.getD (path.length - 1) 0 = 93 then
      let ed := lastIndexByte path 91
      let st := lastIndexByte path 47
      match goSlice path (st + 1) ed with
      | some sub => some (sub, true)
      | none => none
    else
      let pos := lastIndexByte path 47
      if pos = -1 then some (path, false)
      else
        match goSlice path (pos + 1) path.length with
        | some sub => some (sub, true)
        | none => none

/-- `detector.KVItem`. -/
structure KVItem where
  key : Str
  value : Str
  start : Nat
  stop : Nat
  deriving DecidableEq, Repr

/-- The per-rule `Detector`, with the parts that depend on Go's regexp
engine (compiled `KReg`/`VReg` matching, dictionary scans, filter and verify
stages) abstracted as function-valued fields; the key-hit logic, result
construction and offset arithmetic of `doDetectKV` stay concrete. -/
structure Detector where
  ruleID : Int
  isKV : Bool
  kDict : List Str
  kRegMatch : Str → Bool
  hasValueRules : Bool
  detectBytes : Str → List DetectResult
  verify : Str → List DetectResult → List DetectResult
  filterStage : List DetectResult → List DetectResult

/-- `createKVResult` (detector.go). -/
def createKVResult (d : Detector) (inK inV : Str) : DetectResult :=
  { ruleID := d.ruleID, text := inV, maskText := [], resultType := ResultTypeKv,
    key := inK, byteStart := 0, byteEnd := inV.length }

/-- `doDetectKV` (detector.go): extract the last key (a panic on an empty
key), test the key rules for KV detectors, then either emit a whole-value KV
result or run byte detection over the value, shifting by the item's start. -/
def doDetectKV (d : Detector) (kvItem : KVItem) (acc : List DetectResult) :
    Option (List DetectResult) :=
  match getLastKey kvItem.key with
  | none => none
  | some (lastKey, ifExtracted) =>
    let processValue (resultType : Str) : List DetectResult :=
      let vResults := d.detectBytes kvItem.value
      let vNewResults := vResults.map (fun r =>
        { r with
          resultType := resultType, key := kvItem.key,
          byteStart := r.byteStart + kvItem.start, byteEnd := r.byteEnd + kvItem.start })
      acc ++ d.verify kvItem.value vNewResults
    if d.isKV then
      let hit0 := d.kDict.contains lastKey
      let hit1 := if !hit0 && ifExtracted then d.kDict.contains kvItem.key else hit0
      let hit := if !hit1 then d.kRegMatch lastKey else hit1
      if !hit then some acc
      else if !d.hasValueRules then
        let res := createKVResult d kvItem.key kvItem.value
        let res := { res with
          byteStart := res.byteStart + kvItem.start,
          byteEnd := res.byteEnd + kvItem.start }
        some (acc ++ d.verify kvItem.value [res])
      else some (processValue ResultTypeKv)
    else some (processValue ResultTypeValue)

/-- The item loop shared by `Detector.DetectMap` and `Detector.DetectList`. -/
def detectListLoop (d : Detector) : List KVItem → List DetectResult →
    Option (List DetectResult)
  | [], acc => some acc
  | it :: rest, acc =>
    match doDetectKV d it acc with
    | none => none
    | some acc2 => detectListLoop d rest acc2

/-- `Detector.DetectList` (detector.go). -/
def detectorDetectList (d : Detector) (kvList : List KVItem) :
    Option (List DetectResult) :=
  (detectListLoop d kvList []).map d.filterStage

/-- `Detector.DetectMap` (detector.go): run `doDetectKV` on every entry with
a zero-offset item, then filter. -/
def detectorDetectMap (d : Detector) (inputMap : List (Str × Str)) :
    Option (List DetectResult) :=
  (detectListLoop d (inputMap.map (fun kv => ⟨kv.1, kv.2, 0, 0⟩)) []).map d.filterStage

/-- `detectMapImpl` (sdk_detect.go): collect each detector's `DetectMap`
results (a panic in any detector propagates), then merge and mask. -/
def detectMapImplFull (maskFn : DetectResult → Str) :
    List Detector → List (Str × Str) → List DetectResult → Option (List DetectResult)
  | [], _, acc => some (maskResults maskFn (mergeResults acc []))
  | d :: rest, inMap, acc =>
    match detectorDetectMap d inMap with
    | none => none
    | some res => detectMapImplFull maskFn rest inMap (acc ++ res)

/-- `DetectMap` (sdk_detect.go) around `detectMapImpl`: lifecycle gates, the
item cap, key lower-casing, and the recovery wrapper. -/
def engineDetectMap (st : EngineState) (maskFn : DetectResult → Str)
    (detectors : List Detector) (inputMap : List (Str × Str)) : ApiOutcome :=
  recoveryImpl <|
    if !st.isConfigured then .panicked .hasNotConfigured
    else if st.isClosed then .failed .processAfterClose
    else if inputMap.length > DefMaxItem then .failed .maxInputLimit
    else
      match detectMapImplFull maskFn detectors
        (inputMap.map (fun kv => (asciiLower kv.1, kv.2))) [] with
      | none => .panicked .runtimeIndexOutOfRange
      | some _ => .proceeded

theorem detectListLoop_none (d : Detector) :
    ∀ (items : List KVItem) (acc : List DetectResult),
      (∃ it ∈ items, it.key = []) → detectListLoop d items acc = none := by
  intro items
  induction items with
  | nil =>
    intro acc h
    simp at h
  | cons it rest ih =>
    intro acc h
    rw [detectListLoop]
    rcases h with ⟨it2, hmem, hkey⟩
    rcases List.mem_cons.mp hmem with rfl | hmem2
    · rw [show doDetectKV d it2 acc = none from by rw [doDetectKV, hkey]; rfl]
    · cases hdo : doDetectKV d it acc with
      | none => rfl
      | some acc2 => exact ih acc2 ⟨it2, hmem2, hkey⟩

/-- `DefCutter`: the token separator set `" /\r\n\\[](){}:=\"',"`. -/
def DefCutter : Str := [32, 47, 13, 10, 92, 91, 93, 40, 41, 123, 125, 58, 61, 34, 39, 44]

/-- `utf8.DecodeRune` on a byte slice: `(rune, width)`, with `(RuneError, 0)`
on empty input and `(RuneError, 1)` on a malformed sequence. -/
def utf8DecodeRune : Str → Nat × Nat
  | [] => (0xFFFD, 0)
  | b0 :: rest =>
    if b0 < 0x80 then (b0, 1)
    else if b0 < 0xC2 then (0xFFFD, 1)
    else if b0 ≤ 0xDF then
      match rest with
      | b1 :: _ =>
        if 0x80 ≤ b1 ∧ b1 ≤ 0xBF then ((b0 - 0xC0) * 0x40 + (b1 - 0x80), 2)
        else (0xFFFD, 1)
      | [] => (0xFFFD, 1)
    else if b0 ≤ 0xEF then
      match rest with
      | b1 :: b2 :: _ =>
        if (if b0 = 0xE0 then 0xA0 else 0x80) ≤ b1 ∧ b1 ≤ (if b0 = 0xED then 0x9F else 0xBF) ∧
            0x80 ≤ b2 ∧ b2 ≤ 0xBF then
          ((b0 - 0xE0) * 0x1000 + (b1 - 0x80) * 0x40 + (b2 - 0x80), 3)
        else (0xFFFD, 1)
      | _ => (0xFFFD, 1)
    else if b0 ≤ 0xF4 then
      match rest with
      | b1 :: b2 :: b3 :: _ =>
        if (if b0 = 0xF0 then 0x90 else 0x80) ≤ b1 ∧ b1 ≤ (if b0 = 0xF4 then 0x8F else 0xBF) ∧
            0x80 ≤ b2 ∧ b2 ≤ 0xBF ∧ 0x80 ≤ b3 ∧ b3 ≤ 0xBF then
          ((b0 - 0xF0) * 0x40000 + (b1 - 0x80) * 0x1000 + (b2 - 0x80) * 0x40 + (b3 - 0x80), 4)
        else (0xFFFD, 1)
      | _ => (0xFFFD, 1)
    else (0xFFFD, 1)

/-- `isEqualChar` (sdk_detect.go): `:`, `=` or the full-width `：`. -/
def isEqualChar (r : Nat) : Bool := r == 58 || r == 61 || r == 0xFF1A

/-- The `find first non cutter` scan of `firstToken`. -/
def firstNonCutterIdx (line : Str) (i : Nat) : Option Nat :=
  if i < line.length then
    if DefCutter.contains (line.getD i 0) then firstNonCutterIdx line (i + 1) else some i
  else none
termination_by line.length - i

/-- The `find first cutter` scan of `firstToken`. -/
def firstCutterIdx (line : Str) (i : Nat) : Option Nat :=
  if i < line.length then
    if DefCutter.contains (line.getD i 0) then some i else firstCutterIdx line (i + 1)
  else none
termination_by line.length - i

/-- `firstToken` (sdk_detect.go): the first cutter-delimited token at or after
`offset`, with its `[st, ed)` position, or `("", nil)` when out of range. -/
def firstToken (line : Str) (offset : Int) : Str × Option (Nat × Nat) :=
  let sz := line.length
  if 0 ≤ offset ∧ offset < (sz : Int) then
    let st := (firstNonCutterIdx line offset.toNat).getD offset.toNat
    let ed := (firstCutterIdx line (st + 1)).getD sz
    (((line.drop st).take (ed - st)), some (st, ed))
  else ([], none)

/-- The downward `find first non cutter` scan of `lastToken`. -/
def lastNonCutterIdx (line : Str) (i : Int) : Option Nat :=
  if 0 ≤ i then
    if DefCutter.contains (line.getD i.toNat 0) then lastNonCutterIdx line (i - 1)
    else some i.toNat
  else none
termination_by (i + 1).toNat
decreasing_by omega

/-- The downward `find first cutter` scan of `lastToken`. -/
def lastCutterIdx (line : Str) (i : Int) : Option Nat :=
  if 0 ≤ i then
    if DefCutter.contains (line.getD i.toNat 0) then some i.toNat
    else lastCutterIdx line (i - 1)
  else none
termination_by (i + 1).toNat
decreasing_by omega

/-- `lastToken` (sdk_detect.go): the last cutter-delimited token before
`offset`, with its `[st, ed)` position, or `("", nil)` when out of range. -/
def lastToken (line : Str) (offset : Int) : Str × Option (Nat × Nat) :=
  let sz := line.length
  if 0 ≤ offset ∧ offset < (sz : Int) then
    let ed : Nat := match lastNonCutterIdx line (offset - 1) with
      | some k => k + 1
      | none => offset.toNat
    let st := match lastCutterIdx line (Int.ofNat ed - 1) with
      | some k => k + 1
      | none => 0
    (((line.drop st).take (ed - st)), some (st, ed))
  else ([], none)

/-- The append step of `extractKVList`: emit the KV item only when both sides
are non-empty, lower-casing the key, with the value token's position. -/
def emitKV (left : Str) : Str × Option (Nat × Nat) → List KVItem
  | (r, some pos) =>
    if left.length ≠ 0 ∧ r.length ≠ 0 then [⟨asciiLower left, r, pos.1, pos.2⟩] else []
  | (_, none) => []

/-- The scan loop of `extractKVList` (sdk_detect.go): walk the line rune by
rune; at `:`, `=` or `：` (also handling the two-rune `:=` form), extract the
tokens on both sides and emit a KV item. -/
def extractLoop (line : Str) (i : Nat) : List KVItem :=
  if i < line.length then
    match utf8DecodeRune (line.drop i) with
    | (_, 0) => []
    | (ch, width + 1) =>
      let items :=
        if i + 1 < line.length ∧ isEqualChar ch = true then
          if i + 2 < line.length ∧ (utf8DecodeRune (line.drop (i + (width + 1)))).1 = 61 then
            emitKV (lastToken line i).1
              (firstToken line ((i : Int) + (width + 1) +
                ((utf8DecodeRune (line.drop (i + (width + 1)))).2 : Int)))
          else emitKV (lastToken line i).1 (firstToken line ((i : Int) + (width + 1)))
        else []
      items ++ extractLoop line (i + (width + 1))
  else []
termination_by line.length - i
decreasing_by omega

/-- `extractKVList` (sdk_detect.go). -/
def extractKVList (line : Str) : List KVItem := extractLoop line 0

theorem emitKV_key_nonempty (left : Str) (right : Str × Option (Nat × Nat))
    (it : KVItem) (h : it ∈ emitKV left right) : it.key ≠ [] := by
  rcases right with ⟨r, pos⟩
  cases pos with
  | none => simp [emitKV] at h
  | some pos =>
    rw [emitKV] at h
    split at h
    · next hcond =>
      rw [List.mem_singleton] at h
      subst h
      intro hc
      have hc2 : asciiLower left = [] := hc
      have hlen : (asciiLower left).length = left.length := List.length_map _ _
      rw [hc2] at hlen
      simp only [List.length_nil] at hlen
      omega
    · exact (List.not_mem_nil it h).elim

theorem extractLoop_keys_nonempty (line : Str) :
    ∀ (i : Nat) (it : KVItem), it ∈ extractLoop line i → it.key ≠ [] := by
  intro i
  induction i using extractLoop.induct line with
  | case1 i hi fst heq =>
    intro it hmem
    rw [extractLoop, if_pos hi, heq] at hmem
    exact (List.not_mem_nil it hmem).elim
  | case2 i hi ch width heq ih =>
    intro it hmem
    rw [extractLoop, if_pos hi, heq] at hmem
    rcases List.mem_append.mp hmem with hm | hm
    · split at hm
      · split at hm
        · exact emitKV_key_nonempty _ _ _ hm
        · exact emitKV_key_nonempty _ _ _ hm
      · exact (List.not_mem_nil it hm).elim
    · exact ih it hm
  | case3 i hi =>
    intro it hmem
    rw [extractLoop, if_neg hi] at hmem
    exact (List.not_mem_nil it hmem).elim

/-- C10: `getLastKey` evaluates `path[len(path)-1]`, so the empty key hits
the out-of-bounds branch; through `doDetectKV` this panic is reachable from
`Detector.DetectMap` (a map entry with the empty key, a valid public input to
`DetectMap`) and from `Detector.DetectList` (a KV item with the empty key);
inline extraction never produces an empty key, so the precondition is that
every key is non-empty; and at the engine boundary the panic is intercepted
only by `recoveryImpl`, which converts it (being non-critical) into a
recovered call with zero return values. -/
theorem C10_empty_key_oob :
    (getLastKey [] = none) ∧
    (∀ (d : Detector) (items : List KVItem), (∃ it ∈ items, it.key = []) →
      detectorDetectList d items = none) ∧
    (∀ (d : Detector) (m : List (Str × Str)), (∃ kv ∈ m, kv.1 = []) →
      detectorDetectMap d m = none) ∧
    (∀ (line : Str) (it : KVItem), it ∈ extractKVList line → it.key ≠ []) ∧
    (∀ (st : EngineState) (maskFn : DetectResult → Str) (detectors : List Detector)
      (m : List (Str × Str)), st.isConfigured = true → st.isClosed = false →
      m.length ≤ DefMaxItem → detectors ≠ [] → (∃ kv ∈ m, kv.1 = []) →
      engineDetectMap st maskFn detectors m = ApiOutcome.recovered) := by
  refine ⟨rfl, ?_, ?_, ?_, ?_⟩
  · intro d items h
    unfold detectorDetectList
    rw [detectListLoop_none d items [] h]
    rfl
  · intro d m h
    unfold detectorDetectMap
    obtain ⟨kv, hmem, hk⟩ := h
    rw [detectListLoop_none d _ []
      ⟨⟨kv.1, kv.2, 0, 0⟩, List.mem_map.mpr ⟨kv, hmem, rfl⟩, hk⟩]
    rfl
  · exact fun line it h => extractLoop_keys_nonempty line 0 it h
  · intro st maskFn detectors m hconf hclosed hcap hdet hkey
    obtain ⟨d, rest, rfl⟩ := List.exists_cons_of_ne_nil hdet
    obtain ⟨kv, hmem, hk⟩ := hkey
    unfold engineDetectMap
    rw [hconf, hclosed]
    simp only [Bool.not_true, Bool.false_eq_true, if_false]
    rw [if_neg (by omega)]
    have hlow : detectorDetectMap d (m.map (fun kv => (asciiLower kv.1, kv.2))) = none := by
      unfold detectorDetectMap
      rw [detectListLoop_none d _ []
        ⟨⟨asciiLower kv.1, kv.2, 0, 0⟩,
          List.mem_map.mpr ⟨(asciiLower kv.1, kv.2),
            List.mem_map.mpr ⟨kv, hmem, rfl⟩, rfl⟩,
          by rw [hk]; rfl⟩]
      rfl
    rw [detectMapImplFull, hlow]
    rfl

/-- A concrete detector for the C10 witness: a plain VALUE rule with no
dictionaries, trivial regex and identity filter/verify stages. -/
def c10Detector : Detector :=
  { ruleID := 1, isKV := false, kDict := [], kRegMatch := fun _ => false,
    hasValueRules := false, detectBytes := fun _ => [],
    verify := fun _ rs => rs, filterStage := fun rs => rs }

/-- Witness for C10: a configured open engine, one detector, and a map whose
only entry has the empty key — the call ends recovered, not failed. -/
theorem C10_empty_key_oob_witness :
    engineDetectMap ⟨true, false, false⟩ (fun r => r.text) [c10Detector]
      [([], [97])] = ApiOutcome.recovered :=
  C10_empty_key_oob.2.2.2.2 ⟨true, false, false⟩ (fun r => r.text) [c10Detector]
    [([], [97])] rfl rfl (by decide) (List.cons_ne_nil _ _)
    ⟨([], [97]), by simp, rfl⟩

/-! ## C9: struct masking depth limit (`maskStructImpl`, sdk_mask.go) -/

/-- `DefMaxCallDeep` (5): the depth budget of `MaskStruct`. -/
def DefMaxCallDeep : Int := 5

/-- A reflected Go value for `MaskStruct`: strings, structs (each field with
its optional `mask:"..."` tag), typed pointers into an explicit heap (which
may be cyclic), nil pointers, slices/arrays, string-capable interfaces, and
the unsupported kinds that the source silently skips. -/
inductive GoVal where
  | str (s : Str)
  | strukt (fields : List (Option Str × GoVal))
  | ptrNil
  | ptr (addr : Nat)
  | arr (elems : List GoVal)
  | iface (inner : GoVal)
  | other

/-- The mutable object graph behind the pointers; cycles are allowed. -/
abbrev Heap := Nat → GoVal

mutual
/-- `maskStructImpl` (sdk_mask.go) on an arbitrary interface value: depth
check first, then the pointer/nil checks, dereference, field-count cap and
field loop.  The mask workers are abstracted as `mf name input = some out`
(`none`: worker missing or errored — the field is skipped).  `fuel` is the
model's recursion budget: `none` means the budget ran out before the source's
own depth check stopped the recursion; C9 proves `fuel > level` never runs
out.  In-place field mutation is modelled by writing the rebuilt struct back
to the pointer's heap cell after the field loop. -/
def maskStructImpl (mf : Str → Str → Option Str) (heap : Heap) (fuel : Nat)
    (level : Int) (inPtr : GoVal) : Option (Option GoVal × Heap × Option DlpErr) :=
  match fuel with
  | 0 => none
  | fuel + 1 =>
    if level ≤ 0 then some (some inPtr, heap, none)
    else
      match inPtr with
      | GoVal.ptr a =>
        match heap a with
        | GoVal.strukt fields =>
          if fields.length > DefMaxInput then
            some (some inPtr, heap, some DlpErr.maxInputLimit)
          else
            match maskFields mf heap fuel level fields with
            | none => none
            | some (fields2, heap2, none) =>
              some (some inPtr, fun x => if x = a then GoVal.strukt fields2 else heap2 x, none)
            | some (_, heap2, some e) => some (none, heap2, some e)
        | _ => some (some inPtr, heap, none)
      | _ => some (some inPtr, heap, some DlpErr.maskStructInput)
termination_by (fuel, 0)

/-- `maskStructImpl` reached through `valField.Addr()` for an addressable
nested struct value (the pointer checks cannot fire there). -/
def maskStructValue (mf : Str → Str → Option Str) (heap : Heap) (fuel : Nat)
    (level : Int) (v : GoVal) : Option (GoVal × Heap × Option DlpErr) :=
  match fuel with
  | 0 => none
  | fuel + 1 =>
    if level ≤ 0 then some (v, heap, none)
    else
      match v with
      | GoVal.strukt fields =>
        if fields.length > DefMaxInput then some (v, heap, some DlpErr.maxInputLimit)
        else
          match maskFields mf heap fuel level fields with
          | none => none
          | some (fields2, heap2, e) => some (GoVal.strukt fields2, heap2, e)
      | _ => some (v, heap, none)
termination_by (fuel, 0)

/-- The `for i := 0; i < sz; i++` field loop of `maskStructImpl`: a field
error aborts the loop and is returned. -/
def maskFields (mf : Str → Str → Option Str) (heap : Heap) (fuel : Nat) (level : Int) :
    List (Option Str × GoVal) → Option (List (Option Str × GoVal) × Heap × Option DlpErr)
  | [] => some ([], heap, none)
  | (tag, v) :: rest =>
    match maskStructField mf heap fuel level tag v with
    | none => none
    | some (v2, heap2, some e) => some ((tag, v2) :: rest, heap2, some e)
    | some (v2, heap2, none) =>
      match maskFields mf heap2 fuel level rest with
      | none => none
      | some (rest2, heap3, e) => some ((tag, v2) :: rest2, heap3, e)
termination_by fields => (fuel, 1 + sizeOf fields)

/-- `maskStructField` (sdk_mask.go): untagged fields are skipped; strings are
masked by the named worker; nested structs and non-nil pointers recurse with
`level - 1`; string-valued interfaces are masked; slices/arrays go through
the element loop; other kinds are skipped. -/
def maskStructField (mf : Str → Str → Option Str) (heap : Heap) (fuel : Nat)
    (level : Int) (tag : Option Str) (v : GoVal) : Option (GoVal × Heap × Option DlpErr) :=
  match tag with
  | none => some (v, heap, none)
  | some methodName =>
    match v with
    | GoVal.str s =>
      if methodName.length = 0 then some (GoVal.str s, heap, none)
      else some (GoVal.str ((mf methodName s).getD s), heap, none)
    | GoVal.strukt fs =>
      match maskStructValue mf heap fuel (level - 1) (GoVal.strukt fs) with
      | none => none
      | some (v2, heap2, e) => some (v2, heap2, e)
    | GoVal.ptr a =>
      match maskStructImpl mf heap fuel (level - 1) (GoVal.ptr a) with
      | none => none
      | some (_, heap2, e) => some (GoVal.ptr a, heap2, e)
    | GoVal.ptrNil => some (v, heap, none)
    | GoVal.iface inner =>
      match inner with
      | GoVal.str s =>
        if methodName.length = 0 then some (v, heap, none)
        else some (GoVal.iface (GoVal.str ((mf methodName s).getD s)), heap, none)
      | _ => some (v, heap, none)
    | GoVal.arr elems =>
      match maskElems mf heap fuel level methodName elems with
      | none => none
      | some (elems2, heap2, e) => some (GoVal.arr elems2, heap2, e)
    | GoVal.other => some (v, heap, none)
termination_by (fuel, 1 + sizeOf v)

/-- `maskTypeList` (sdk_mask.go): strings are masked in place, pointer and
struct elements recurse with `level - 1`, all other element kinds are
skipped; an element error aborts the loop. -/
def maskElems (mf : Str → Str → Option Str) (heap : Heap) (fuel : Nat) (level : Int)
    (methodName : Str) : List GoVal → Option (List GoVal × Heap × Option DlpErr)
  | [] => some ([], heap, none)
  | e :: rest =>
    let step : Option (GoVal × Heap × Option DlpErr) :=
      match e with
      | GoVal.str s =>
        if methodName.length = 0 then some (e, heap, none)
        else some (GoVal.str ((mf methodName s).getD s), heap, none)
      | GoVal.ptr a =>
        match maskStructImpl mf heap fuel (level - 1) (GoVal.ptr a) with
        | none => none
        | some (_, heap2, err) => some (GoVal.ptr a, heap2, err)
      | GoVal.ptrNil => some (e, heap, none)
      | GoVal.strukt fs =>
        match maskStructValue mf heap fuel (level - 1) (GoVal.strukt fs) with
        | none => none
        | some (v2, heap2, err) => some (v2, heap2, err)
      | _ => some (e, heap, none)
    match step with
    | none => none
    | some (e2, heap2, some err) => some (e2 :: rest, heap2, some err)
    | some (e2, heap2, none) =>
      match maskElems mf heap2 fuel level methodName rest with
      | none => none
      | some (rest2, heap3, err) => some (e2 :: rest2, heap3, err)
termination_by elems => (fuel, 1 + sizeOf elems)
end

/-- Fuel sufficiency for the struct-masking traversal: a budget strictly
above the depth counter never runs out, on any heap (cyclic ones included),
because every re-entry into `maskStructImpl`/`maskStructValue` decrements the
depth and everything else is structural. -/
theorem maskStruct_total (fuel : Nat) :
    (∀ (mf : Str → Str → Option Str) (heap : Heap) (level : Int) (inPtr : GoVal),
      level.toNat < fuel → (maskStructImpl mf heap fuel level inPtr).isSome = true) ∧
    (∀ (mf : Str → Str → Option Str) (heap : Heap) (level : Int) (v : GoVal),
      level.toNat < fuel → (maskStructValue mf heap fuel level v).isSome = true) ∧
    (∀ (mf : Str → Str → Option Str) (heap : Heap) (level : Int)
      (fields : List (Option Str × GoVal)), (level - 1).toNat < fuel →
      (maskFields mf heap fuel level fields).isSome = true) ∧
    (∀ (mf : Str → Str → Option Str) (heap : Heap) (level : Int) (tag : Option Str)
      (v : GoVal), (level - 1).toNat < fuel →
      (maskStructField mf heap fuel level tag v).isSome = true) ∧
    (∀ (mf : Str → Str → Option Str) (heap : Heap) (level : Int) (mn : Str)
      (elems : List GoVal), (level - 1).toNat < fuel →
      (maskElems mf heap fuel level mn elems).isSome = true) := by
  induction fuel with
  | zero =>
    refine ⟨?_, ?_, ?_, ?_, ?_⟩ <;> intro mf heap level <;> intros <;> omega
  | succ f ih =>
    obtain ⟨ihImpl, ihVal, ihFields, ihField, ihElems⟩ := ih
    have hImpl : ∀ (mf : Str → Str → Option Str) (heap : Heap) (level : Int)
        (inPtr : GoVal), level.toNat < f + 1 →
        (maskStructImpl mf heap (f + 1) level inPtr).isSome = true := by
      intro mf heap level inPtr hlt
      by_cases hl : level ≤ 0
      · cases inPtr <;> rw [maskStructImpl] <;> simp [hl] ; all_goals (intro x h; exact GoVal.noConfusion h)
      · cases inPtr with
        | ptr a =>
          cases hha : heap a with
          | strukt fields =>
            by_cases hbig : fields.length > DefMaxInput
            · rw [maskStructImpl]
              simp [hl, hha, hbig]
            · have hc := ihFields mf heap level fields (by omega)
              cases hm : maskFields mf heap f level fields with
              | none => rw [hm] at hc; simp at hc
              | some out =>
                rcases out with ⟨fields2, heap2, e⟩
                rw [maskStructImpl]
                cases e <;> simp [hl, hha, hbig, hm]
          | str s => rw [maskStructImpl]; simp [hl, hha] ; all_goals (intro x h; exact GoVal.noConfusion h)
          | ptrNil => rw [maskStructImpl]; simp [hl, hha] ; all_goals (intro x h; exact GoVal.noConfusion h)
          | ptr b => rw [maskStructImpl]; simp [hl, hha] ; all_goals (intro x h; exact GoVal.noConfusion h)
          | arr es => rw [maskStructImpl]; simp [hl, hha] ; all_goals (intro x h; exact GoVal.noConfusion h)
          | iface w => rw [maskStructImpl]; simp [hl, hha] ; all_goals (intro x h; exact GoVal.noConfusion h)
          | other => rw [maskStructImpl]; simp [hl, hha] ; all_goals (intro x h; exact GoVal.noConfusion h)
        | str s => rw [maskStructImpl]; simp [hl] ; all_goals (intro x h; exact GoVal.noConfusion h)
        | strukt fs => rw [maskStructImpl]; simp [hl] ; all_goals (intro x h; exact GoVal.noConfusion h)
        | ptrNil => rw [maskStructImpl]; simp [hl] ; all_goals (intro x h; exact GoVal.noConfusion h)
        | arr es => rw [maskStructImpl]; simp [hl] ; all_goals (intro x h; exact GoVal.noConfusion h)
        | iface w => rw [maskStructImpl]; simp [hl] ; all_goals (intro x h; exact GoVal.noConfusion h)
        | other => rw [maskStructImpl]; simp [hl] ; all_goals (intro x h; exact GoVal.noConfusion h)
    have hVal : ∀ (mf : Str → Str → Option Str) (heap : Heap) (level : Int)
        (v : GoVal), level.toNat < f + 1 →
        (maskStructValue mf heap (f + 1) level v).isSome = true := by
      intro mf heap level v hlt
      by_cases hl : level ≤ 0
      · cases v <;> rw [maskStructValue] <;> simp [hl] ; all_goals (intro x h; exact GoVal.noConfusion h)
      · cases v with
        | strukt fields =>
          by_cases hbig : fields.length > DefMaxInput
          · rw [maskStructValue]
            simp [hl, hbig]
          · have hc := ihFields mf heap level fields (by omega)
            cases hm : maskFields mf heap f level fields with
            | none => rw [hm] at hc; simp at hc
            | some out =>
              rcases out with ⟨fields2, heap2, e⟩
              rw [maskStructValue]
              simp [hl, hbig, hm]
        | str s => rw [maskStructValue]; simp [hl] ; all_goals (intro x h; exact GoVal.noConfusion h)
        | ptrNil => rw [maskStructValue]; simp [hl] ; all_goals (intro x h; exact GoVal.noConfusion h)
        | ptr b => rw [maskStructValue]; simp [hl] ; all_goals (intro x h; exact GoVal.noConfusion h)
        | arr es => rw [maskStructValue]; simp [hl] ; all_goals (intro x h; exact GoVal.noConfusion h)
        | iface w => rw [maskStructValue]; simp [hl] ; all_goals (intro x h; exact GoVal.noConfusion h)
        | other => rw [maskStructValue]; simp [hl] ; all_goals (intro x h; exact GoVal.noConfusion h)
    have hElems : ∀ (mf : Str → Str → Option Str) (heap : Heap) (level : Int)
        (mn : Str) (elems : List GoVal), (level - 1).toNat < f + 1 →
        (maskElems mf heap (f + 1) level mn elems).isSome = true := by
      intro mf heap level mn elems hlt
      induction elems generalizing heap with
      | nil => rw [maskElems]; simp
      | cons e rest ihe =>
        cases e with
        | str s =>
          cases hm2 : maskElems mf heap (f + 1) level mn rest with
          | none =>
            have := ihe heap
            rw [hm2] at this
            simp at this
          | some out2 =>
            rcases out2 with ⟨r2, h3, e3⟩
            rw [maskElems]
            by_cases hmn : mn.length = 0 <;> simp [hmn, hm2]
        | ptr a =>
          have hi := hImpl mf heap (level - 1) (GoVal.ptr a) (by omega)
          cases hm : maskStructImpl mf heap (f + 1) (level - 1) (GoVal.ptr a) with
          | none => rw [hm] at hi; simp at hi
          | some out =>
            rcases out with ⟨v2, heap2, err⟩
            cases err with
            | none =>
              cases hm2 : maskElems mf heap2 (f + 1) level mn rest with
              | none =>
                have := ihe heap2
                rw [hm2] at this
                simp at this
              | some out2 =>
                rcases out2 with ⟨r2, h3, e3⟩
                rw [maskElems]
                simp [hm, hm2]
            | some e4 =>
              rw [maskElems]
              simp [hm]
        | ptrNil =>
          cases hm2 : maskElems mf heap (f + 1) level mn rest with
          | none =>
            have := ihe heap
            rw [hm2] at this
            simp at this
          | some out2 =>
            rcases out2 with ⟨r2, h3, e3⟩
            rw [maskElems]
            simp [hm2] ; all_goals (intros; exact GoVal.noConfusion (by assumption))
        | strukt fs =>
          have hv := hVal mf heap (level - 1) (GoVal.strukt fs) (by omega)
          cases hm : maskStructValue mf heap (f + 1) (level - 1) (GoVal.strukt fs) with
          | none => rw [hm] at hv; simp at hv
          | some out =>
            rcases out with ⟨v2, heap2, err⟩
            cases err with
            | none =>
              cases hm2 : maskElems mf heap2 (f + 1) level mn rest with
              | none =>
                have := ihe heap2
                rw [hm2] at this
                simp at this
              | some out2 =>
                rcases out2 with ⟨r2, h3, e3⟩
                rw [maskElems]
                simp [hm, hm2]
            | some e4 =>
              rw [maskElems]
              simp [hm]
        | arr es =>
          cases hm2 : maskElems mf heap (f + 1) level mn rest with
          | none =>
            have := ihe heap
            rw [hm2] at this
            simp at this
          | some out2 =>
            rcases out2 with ⟨r2, h3, e3⟩
            rw [maskElems]
            simp [hm2] ; all_goals (intros; exact GoVal.noConfusion (by assumption))
        | iface w =>
          cases hm2 : maskElems mf heap (f + 1) level mn rest with
          | none =>
            have := ihe heap
            rw [hm2] at this
            simp at this
          | some out2 =>
            rcases out2 with ⟨r2, h3, e3⟩
            rw [maskElems]
            simp [hm2] ; all_goals (intros; exact GoVal.noConfusion (by assumption))
        | other =>
          cases hm2 : maskElems mf heap (f + 1) level mn rest with
          | none =>
            have := ihe heap
            rw [hm2] at this
            simp at this
          | some out2 =>
            rcases out2 with ⟨r2, h3, e3⟩
            rw [maskElems]
            simp [hm2] ; all_goals (intros; exact GoVal.noConfusion (by assumption))
    have hField : ∀ (mf : Str → Str → Option Str) (heap : Heap) (level : Int)
        (tag : Option Str) (v : GoVal), (level - 1).toNat < f + 1 →
        (maskStructField mf heap (f + 1) level tag v).isSome = true := by
      intro mf heap level tag v hlt
      cases tag with
      | none => rw [maskStructField]; simp
      | some mn =>
        cases v with
        | str s =>
          rw [maskStructField]
          by_cases hmn : mn.length = 0 <;> simp [hmn]
        | strukt fs =>
          have hv := hVal mf heap (level - 1) (GoVal.strukt fs) hlt
          cases hm : maskStructValue mf heap (f + 1) (level - 1) (GoVal.strukt fs) with
          | none => rw [hm] at hv; simp at hv
          | some out =>
            rcases out with ⟨v2, heap2, e⟩
            rw [maskStructField]
            simp [hm]
        | ptr a =>
          have hi := hImpl mf heap (level - 1) (GoVal.ptr a) hlt
          cases hm : maskStructImpl mf heap (f + 1) (level - 1) (GoVal.ptr a) with
          | none => rw [hm] at hi; simp at hi
          | some out =>
            rcases out with ⟨v2, heap2, e⟩
            rw [maskStructField]
            simp [hm]
        | ptrNil => rw [maskStructField]; simp
        | iface inner =>
          cases inner with
          | str s =>
            rw [maskStructField]
            by_cases hmn : mn.length = 0 <;> simp [hmn] ; all_goals (intro x h; exact GoVal.noConfusion h)
          | strukt fs => rw [maskStructField]; simp ; all_goals (intro x h; exact GoVal.noConfusion h)
          | ptrNil => rw [maskStructField]; simp ; all_goals (intro x h; exact GoVal.noConfusion h)
          | ptr a => rw [maskStructField]; simp ; all_goals (intro x h; exact GoVal.noConfusion h)
          | arr es => rw [maskStructField]; simp ; all_goals (intro x h; exact GoVal.noConfusion h)
          | iface w => rw [maskStructField]; simp ; all_goals (intro x h; exact GoVal.noConfusion h)
          | other => rw [maskStructField]; simp ; all_goals (intro x h; exact GoVal.noConfusion h)
        | arr elems =>
          have he := hElems mf heap level mn elems hlt
          cases hm : maskElems mf heap (f + 1) level mn elems with
          | none => rw [hm] at he; simp at he
          | some out =>
            rcases out with ⟨es2, heap2, e⟩
            rw [maskStructField]
            simp [hm]
        | other => rw [maskStructField]; simp
    have hFields : ∀ (mf : Str → Str → Option Str) (heap : Heap) (level : Int)
        (fields : List (Option Str × GoVal)), (level - 1).toNat < f + 1 →
        (maskFields mf heap (f + 1) level fields).isSome = true := by
      intro mf heap level fields hlt
      induction fields generalizing heap with
      | nil => rw [maskFields]; simp
      | cons p rest ihf =>
        rcases p with ⟨tag, v⟩
        have hd := hField mf heap level tag v hlt
        cases hm : maskStructField mf heap (f + 1) level tag v with
        | none => rw [hm] at hd; simp at hd
        | some out =>
          rcases out with ⟨v2, heap2, e⟩
          cases e with
          | none =>
            cases hm2 : maskFields mf heap2 (f + 1) level rest with
            | none =>
              have := ihf heap2
              rw [hm2] at this
              simp at this
            | some out2 =>
              rcases out2 with ⟨r2, h3, e2⟩
              rw [maskFields]
              simp [hm, hm2]
          | some err =>
            rw [maskFields]
            simp [hm]
    exact ⟨hImpl, hVal, hFields, hField, hElems⟩

/-- `MaskStruct` (sdk_mask.go line 51): the top-level call enters
`maskStructImpl` with the depth counter at `DefMaxCallDeep`; the model's fuel
budget is one more than that. -/
def maskStructTop (mf : Str → Str → Option Str) (heap : Heap) (inPtr : GoVal) :
    Option (Option GoVal × Heap × Option DlpErr) :=
  maskStructImpl mf heap (DefMaxCallDeep.toNat + 1) DefMaxCallDeep inPtr

/-- C9: the struct-masking recursion is depth-bounded and total.  (1) the
depth budget constant is 5; (2) any call with depth `level ≤ 0` returns its
input unchanged with no error and without touching the heap; (3) on every
heap — cyclic pointer structures included — a fuel budget strictly above the
depth counter never runs out, because every recursive step into a nested
struct, pointer referent or slice/array element decrements the depth
(`level - 1` in `maskStructField`/`maskElems`); (4) hence the top-level
`MaskStruct` entry, which starts at depth `DefMaxCallDeep`, terminates on
every input value and heap. -/
theorem C9_maskstruct_depth :
    DefMaxCallDeep = 5 ∧
    (∀ (mf : Str → Str → Option Str) (heap : Heap) (fuel : Nat) (level : Int)
      (inPtr : GoVal), level ≤ 0 → 0 < fuel →
      maskStructImpl mf heap fuel level inPtr = some (some inPtr, heap, none)) ∧
    (∀ (mf : Str → Str → Option Str) (heap : Heap) (fuel : Nat) (level : Int)
      (inPtr : GoVal), level.toNat < fuel →
      (maskStructImpl mf heap fuel level inPtr).isSome = true) ∧
    (∀ (mf : Str → Str → Option Str) (heap : Heap) (inPtr : GoVal),
      (maskStructTop mf heap inPtr).isSome = true) := by
  refine ⟨rfl, ?_, ?_, ?_⟩
  · intro mf heap fuel level inPtr hl hf
    cases fuel with
    | zero => omega
    | succ f =>
      cases inPtr <;> (rw [maskStructImpl]; rw [if_pos hl])
      all_goals (intro x h; exact GoVal.noConfusion h)
  · intro mf heap fuel level inPtr hlt
    exact (maskStruct_total fuel).1 mf heap level inPtr hlt
  · intro mf heap inPtr
    exact (maskStruct_total (DefMaxCallDeep.toNat + 1)).1 mf heap DefMaxCallDeep inPtr
      (by norm_num [DefMaxCallDeep])

/-- Witness for C9 at a cyclic heap: cell 0 is a struct whose tagged field
points back to cell 0.  The depth-0 call is the identity; the top-level call
still terminates on the cycle. -/
theorem C9_maskstruct_depth_witness :
    maskStructImpl (fun _ s => some s)
        (fun _ => GoVal.strukt [(some [77], GoVal.ptr 0)]) 1 0 (GoVal.ptr 0)
      = some (some (GoVal.ptr 0), fun _ => GoVal.strukt [(some [77], GoVal.ptr 0)], none) ∧
    (maskStructTop (fun _ s => some s)
        (fun _ => GoVal.strukt [(some [77], GoVal.ptr 0)]) (GoVal.ptr 0)).isSome = true :=
  ⟨C9_maskstruct_depth.2.1 (fun _ s => some s)
      (fun _ => GoVal.strukt [(some [77], GoVal.ptr 0)]) 1 0 (GoVal.ptr 0)
      (by norm_num) (by norm_num),
   C9_maskstruct_depth.2.2.2 (fun _ s => some s)
      (fun _ => GoVal.strukt [(some [77], GoVal.ptr 0)]) (GoVal.ptr 0)⟩

/-! ### C6: the ADDRESS mask algorithm (the `mask` package, part_003) -/

/-- Whether `w` occurs in `s` starting at byte `i`. -/
def matchesAt (s w : Str) (i : Nat) : Bool := (s.drop i).take w.length == w

/-- `strings.Index s w`: byte index of the first occurrence of `w` in `s`,
`-1` when there is none (`0` for an empty `w`). -/
def strIndex (s w : Str) : Int :=
  match (List.range (s.length + 1)).find? (fun i => matchesAt s w i) with
  | some i => (i : Int)
  | none => -1

/-- The `for i, word := range list` loop of `indexSubList` (part_003):
`acc` is `(retPos, retId)`; with `isLast` unset the first term found
returns immediately, with it set a later-and-not-earlier occurrence
(`loc >= retPos`) replaces the accumulator. -/
def indexSubListAux (tmp : Str) (st : Nat) (isLast : Bool) :
    List Str → Nat → Int × Int → Int × Int
  | [], _, acc => acc
  | word :: rest, i, (retPos, retId) =>
    let pos := strIndex tmp word
    if pos = -1 then indexSubListAux tmp st isLast rest (i + 1) (retPos, retId)
    else
      let loc : Int := (st : Int) + pos
      if retPos = -1 then
        if isLast then indexSubListAux tmp st isLast rest (i + 1) (loc, (i : Int))
        else (loc, (i : Int))
      else if isLast && loc ≥ retPos then
        indexSubListAux tmp st isLast rest (i + 1) (loc, (i : Int))
      else indexSubListAux tmp st isLast rest (i + 1) (retPos, retId)

/-- `indexSubList` (part_003): scan `in[st:]` for the terms of `list`. -/
def indexSubList (input : Str) (st : Nat) (list : List Str) (isLast : Bool) : Int × Int :=
  indexSubListAux (input.drop st) st isLast list 0 (-1, -1)

/-- The value of a standard base64 alphabet byte. -/
def b64Val (c : Nat) : Option Nat :=
  if 65 ≤ c ∧ c ≤ 90 then some (c - 65)
  else if 97 ≤ c ∧ c ≤ 122 then some (c - 97 + 26)
  else if 48 ≤ c ∧ c ≤ 57 then some (c - 48 + 52)
  else if c = 43 then some 62
  else if c = 47 then some 63
  else none

/-- Reassemble decoded 6-bit groups into bytes (`base64.StdEncoding`). -/
def b64Bytes : List Nat → Option Str
  | [] => some []
  | a :: b :: c :: d :: rest =>
    match b64Bytes rest with
    | some tail => some ([a * 4 + b / 16, b % 16 * 16 + c / 4, c % 4 * 64 + d] ++ tail)
    | none => none
  | [a, b] => some [a * 4 + b / 16]
  | [a, b, c] => some [a * 4 + b / 16, b % 16 * 16 + c / 4]
  | _ => none

/-- `base64.StdEncoding.DecodeString`: strip the trailing padding, decode. -/
def b64Decode (s : Str) : Option Str :=
  match (s.reverse.dropWhile (fun c => c == 61)).reverse.mapM b64Val with
  | some vals => b64Bytes vals
  | none => none

/-- The ASCII white-space bytes of `strings.TrimSpace` (the decoded resource
lists only carry a trailing newline). -/
def isSpaceByte (c : Nat) : Bool :=
  c == 32 || c == 9 || c == 10 || c == 11 || c == 12 || c == 13

/-- `strings.TrimSpace` on ASCII-framed input. -/
def trimSpace (s : Str) : Str :=
  ((s.dropWhile isSpaceByte).reverse.dropWhile isSpaceByte).reverse

/-- `strings.Split` on a single separator byte. -/
def splitByte (sep : Nat) : Str → List Str
  | [] => [[]]
  | c :: rest =>
    if c == sep then [] :: splitByte sep rest
    else
      match splitByte sep rest with
      | [] => [[c]]
      | h :: t => (c :: h) :: t

/-- `loadResList` (part_003): base64-decode, trim, split on the bar byte. -/
def loadResList (res : Str) : List Str :=
  match b64Decode res with
  | some d => splitByte 124 (trimSpace d)
  | none => []

/-- The `enterListRes` base64 constant (part_003), as its ASCII bytes. -/
def enterListRes : Str :=
  [54, 75, 71, 88, 54, 89, 71, 84, 102, 79, 105, 51, 114, 51, 122, 111, 111, 90,
   100, 56, 54, 89, 101, 77, 102, 79, 97, 100, 107, 88, 122, 112, 108, 89, 100,
   56, 53, 98, 71, 118, 102, 79, 101, 55, 104, 65, 111, 61]

/-- The `midListRes` base64 constant (part_003), as its ASCII bytes. -/
def midListRes : Str :=
  [53, 54, 83, 43, 53, 89, 121, 54, 102, 79, 87, 119, 106, 43, 87, 77, 117, 110,
   122, 108, 112, 75, 102, 108, 106, 113, 90, 56, 53, 98, 109, 47, 53, 90, 121,
   54, 102, 79, 87, 80, 116, 43, 97, 108, 118, 72, 122, 108, 106, 90, 88, 108,
   104, 89, 78, 56, 53, 89, 43, 51, 102, 79, 87, 120, 103, 110, 122, 108, 114,
   113, 82, 56, 53, 111, 105, 51, 67, 103, 61, 61]

/-- `enterList = loadResList(enterListRes)` (part_003). -/
def enterList : List Str := loadResList enterListRes

/-- `midList = loadResList(midListRes)` (part_003). -/
def midList : List Str := loadResList midListRes

/-- `maskNumberImpl` (part_003): every ASCII digit becomes `*`. -/
def maskNumberImpl (s : Str) : Str :=
  s.map (fun ch => if 48 ≤ ch ∧ ch ≤ 57 then 42 else ch)

/-- `utf8.RuneStart`: not a UTF-8 continuation byte. -/
def runeStart (b : Nat) : Bool := !(b / 64 % 4 == 2)

/-- The backward scan of `utf8.DecodeLastRuneInString`: the value of the Go
`start` cursor after the loop, with its negative clamp (`Nat` subtraction
clamps exactly as the Go code does). -/
def lastRuneStart (s : Str) : Nat :=
  match ((List.range (s.length - 1 - (s.length - 4))).map
      (fun k => s.length - 2 - k)).find? (fun i => runeStart (s.getD i 0)) with
  | some i => i
  | none => s.length - 4 - 1

/-- The width returned by `utf8.DecodeLastRuneInString`. -/
def decodeLastRuneWidth (s : Str) : Nat :=
  if s.length = 0 then 0
  else if s.getD (s.length - 1) 0 < 128 then 1
  else
    let start := lastRuneStart s
    let size := (utf8DecodeRune (s.drop start)).2
    if start + size = s.length then size else 1

/-- The `mask Last 3 rune` loop of `maskAddressImpl`: the shortened string
and the number of bytes removed. -/
def dropLastRunes : Str → Nat → Str × Nat
  | out, 0 => (out, 0)
  | out, n + 1 =>
    if out.length = 0 then (out, 0)
    else
      let w := decodeLastRuneWidth out
      let r := dropLastRunes (out.take (out.length - w)) n
      (r.1, r.2 + w)

/-- The middle-term loop of `maskAddressImpl`: each step replaces the run
before the found middle term with stars and jumps past the term.  `fuel`
always exceeds the remaining byte count at the top call, so it never runs
out: every step advances `st` past a non-empty middle term. -/
def midLoop (input : Str) : Nat → Nat → Str → Str × Nat
  | 0, st, out => (out, st)
  | fuel + 1, st, out =>
    let pr := indexSubList input st midList false
    if pr.1 ≠ -1 ∧ st < input.length then
      let w := midList.getD pr.2.toNat []
      midLoop input fuel (pr.1.toNat + w.length)
        (out ++ List.replicate (pr.1.toNat - st) 42 ++ w)
    else (out, st)

/-- `maskAddressImpl` (part_003): skip past the selected entry term, run the
middle-term loop, star every digit, and if nothing changed mask the last
three runes with one star per rune byte. -/
def maskAddressImpl (input : Str) : Str :=
  let er := indexSubList input 0 enterList true
  let st1 : Nat := if er.1 = -1 then 0 else er.1.toNat + (enterList.getD er.2.toNat []).length
  let ml := midLoop input (input.length + 1) st1 (input.take st1)
  let out2 := ml.1 ++ input.drop ml.2
  let out3 := maskNumberImpl out2
  if out3 == input then
    let dr := dropLastRunes out3 3
    dr.1 ++ List.replicate dr.2 42
  else out3

/-- The C6 claim's reading of the entry scan, for comparison with the code:
the EARLIEST occurrence of any entry term (the earlier list entry winning
ties). -/
def specEarliest (input : Str) (st : Nat) (list : List Str) : Int × Int :=
  (list.enum).foldl
    (fun acc p =>
      let pos := strIndex (input.drop st) p.2
      if pos = -1 then acc
      else
        let loc : Int := (st : Int) + pos
        if acc.1 = -1 ∨ loc < acc.1 then (loc, (p.1 : Int)) else acc)
    (-1, -1)

/-- `maskAddressImpl` as the C6 claim words it: identical to the code except
that the entry term is selected at its earliest occurrence. -/
def specMaskAddress (input : Str) : Str :=
  let er := specEarliest input 0 enterList
  let st1 : Nat := if er.1 = -1 then 0 else er.1.toNat + (enterList.getD er.2.toNat []).length
  let ml := midLoop input (input.length + 1) st1 (input.take st1)
  let out2 := ml.1 ++ input.drop ml.2
  let out3 := maskNumberImpl out2
  if out3 == input then
    let dr := dropLastRunes out3 3
    dr.1 ++ List.replicate dr.2 42
  else out3

/-- The C6 counterexample input: a 13-byte UTF-8 address-like string with an
entry term at byte 0 (3 bytes) and a longer entry term at byte 7, and a
middle term at byte 4. -/
def c6Input : Str := [232, 183, 175, 97, 229, 143, 183, 232, 161, 151, 233, 129, 147]

/-- C6 counterexample: the entry scan keeps the RIGHT-most of the entry
terms' first occurrences, not the earliest.  On `c6Input` the code skips
past byte 10, finds no middle term or digit after it, and falls back to
starring the last three runes; the claim's earliest-entry reading instead
stars the run before the middle term and returns without the fallback.  The
two outputs differ. -/
theorem C6_counterexample :
    maskAddressImpl c6Input = [232, 183, 175, 97] ++ List.replicate 9 42 ∧
    specMaskAddress c6Input =
      [232, 183, 175, 42, 229, 143, 183, 232, 161, 151, 233, 129, 147] ∧
    maskAddressImpl c6Input ≠ specMaskAddress c6Input := by
  refine ⟨by decide, by decide, by decide⟩

/-- One step of the corrected entry selection: keep the right-most of the
first occurrences seen so far, a later list entry winning ties. -/
def specArgmaxStep (tmp : Str) (st : Nat) (acc : Int × Int) (p : Nat × Str) : Int × Int :=
  let pos := strIndex tmp p.2
  if pos = -1 then acc
  else if acc.1 = -1 ∨ (st : Int) + pos ≥ acc.1 then ((st : Int) + pos, (p.1 : Int)) else acc

/-- The corrected C6 entry selection: among the first occurrences of each
term of `list` in `input[st:]`, the right-most one (the later list entry
winning ties); `(-1, -1)` when no term occurs. -/
def specArgmax (input : Str) (st : Nat) (list : List Str) : Int × Int :=
  (list.enum).foldl (specArgmaxStep (input.drop st) st) (-1, -1)

/-- The corrected C6 middle-term selection: the first term in list order
that occurs at all in `input[st:]`, at that term's first occurrence. -/
def specFirstListed (input : Str) (st : Nat) (list : List Str) : Int × Int :=
  match (list.enum).find? (fun p => strIndex (input.drop st) p.2 != -1) with
  | some p => ((st : Int) + strIndex (input.drop st) p.2, (p.1 : Int))
  | none => (-1, -1)

lemma indexSubListAux_true (tmp : Str) (st : Nat) :
    ∀ (list : List Str) (i : Nat) (acc : Int × Int),
      indexSubListAux tmp st true list i acc =
        (List.enumFrom i list).foldl (specArgmaxStep tmp st) acc := by
  intro list
  induction list with
  | nil =>
    intro i acc
    rw [indexSubListAux]
    simp [List.enumFrom]
  | cons w rest ih =>
    intro i acc
    rcases acc with ⟨retPos, retId⟩
    rw [indexSubListAux]
    simp only [List.enumFrom, List.foldl_cons]
    by_cases hpos : strIndex tmp w = -1
    · simp [hpos, specArgmaxStep, ih]
    · by_cases hr : retPos = -1
      · simp [hpos, hr, specArgmaxStep, ih]
      · by_cases hge : (st : Int) + strIndex tmp w ≥ retPos
        · simp [hpos, hr, hge, specArgmaxStep, ih]
        · simp [hpos, hr, hge, specArgmaxStep, ih]

lemma indexSubList_true_spec (input : Str) (st : Nat) (list : List Str) :
    indexSubList input st list true = specArgmax input st list := by
  rw [indexSubList, specArgmax, indexSubListAux_true]
  rfl

lemma indexSubListAux_false (tmp : Str) (st : Nat) :
    ∀ (list : List Str) (i : Nat),
      indexSubListAux tmp st false list i (-1, -1) =
        match (List.enumFrom i list).find? (fun p => strIndex tmp p.2 != -1) with
        | some p => ((st : Int) + strIndex tmp p.2, (p.1 : Int))
        | none => ((-1 : Int), (-1 : Int)) := by
  intro list
  induction list with
  | nil =>
    intro i
    rw [indexSubListAux]
    simp [List.enumFrom]
  | cons w rest ih =>
    intro i
    rw [indexSubListAux]
    by_cases hpos : strIndex tmp w = -1
    · simp [List.enumFrom, List.find?_cons, hpos, ih]
    · simp [List.enumFrom, List.find?_cons, hpos]

lemma indexSubList_false_spec (input : Str) (st : Nat) (list : List Str) :
    indexSubList input st list false = specFirstListed input st list := by
  rw [indexSubList, specFirstListed, indexSubListAux_false]
  rfl

/-- The middle-term loop of the corrected C6 description. -/
def specMidLoop (input : Str) : Nat → Nat → Str → Str × Nat
  | 0, st, out => (out, st)
  | fuel + 1, st, out =>
    let pr := specFirstListed input st midList
    if pr.1 ≠ -1 ∧ st < input.length then
      let w := midList.getD pr.2.toNat []
      specMidLoop input fuel (pr.1.toNat + w.length)
        (out ++ List.replicate (pr.1.toNat - st) 42 ++ w)
    else (out, st)

lemma midLoop_eq_spec (input : Str) :
    ∀ (fuel st : Nat) (out : Str),
      midLoop input fuel st out = specMidLoop input fuel st out := by
  intro fuel
  induction fuel with
  | zero =>
    intro st out
    rw [midLoop, specMidLoop]
  | succ f ih =>
    intro st out
    rw [midLoop, specMidLoop]
    simp only [indexSubList_false_spec, ih]

/-- `maskAddressImpl` as the corrected C6 statement describes it: the entry
term is selected at the right-most of the entry terms' first occurrences
(a later list entry winning ties) and skipped; then the run before each
first-listed middle term present is starred; then every ASCII digit is
starred; and if nothing changed the last three runes are starred, one star
per rune byte. -/
def specMaskAddressAmended (input : Str) : Str :=
  let er := specArgmax input 0 enterList
  let st1 : Nat := if er.1 = -1 then 0 else er.1.toNat + (enterList.getD er.2.toNat []).length
  let ml := specMidLoop input (input.length + 1) st1 (input.take st1)
  let out2 := ml.1 ++ input.drop ml.2
  let out3 := out2.map (fun ch => if 48 ≤ ch ∧ ch ≤ 57 then 42 else ch)
  if out3 == input then
    let dr := dropLastRunes out3 3
    dr.1 ++ List.replicate dr.2 42
  else out3

/-- C6 (amended): the ADDRESS mask algorithm is as claimed except for the
two term-selection rules.  The entry scan (`indexSubList` with `isLast`)
returns not the earliest occurrence but the right-most among the entry
terms' first occurrences, the later list entry winning ties; the middle
scan returns the first term in list order that occurs at all, at that
term's first occurrence.  With those selections, every input is processed
exactly as `specMaskAddressAmended` describes: skip past the selected entry
term, star the runs before the selected middle terms, star every ASCII
digit, and fall back to starring the last three runes (one star per rune
byte) when nothing changed. -/
theorem C6_mask_address_amended :
    (∀ (input : Str) (st : Nat) (list : List Str),
      indexSubList input st list true = specArgmax input st list) ∧
    (∀ (input : Str) (st : Nat) (list : List Str),
      indexSubList input st list false = specFirstListed input st list) ∧
    (∀ input : Str, maskAddressImpl input = specMaskAddressAmended input) := by
  refine ⟨indexSubList_true_spec, indexSubList_false_spec, ?_⟩
  intro input
  rw [maskAddressImpl, specMaskAddressAmended]
  simp only [indexSubList_true_spec, midLoop_eq_spec, maskNumberImpl]

/-! ### C8: DeIdentifyJSONByResult and dfsJSON (sdk_de_identify.go, part_005) -/

/-- The JSON documents `json.Unmarshal` produces into `interface{}`: null,
bool, number (kept as its raw token — the model serializes a number exactly
as written, which both sides of C8 share), string, array, object.  Object
fields are an association list; `json.Unmarshal` keeps the last duplicate
key, which the parser below reproduces. -/
inductive JVal where
  | jnull
  | jbool (b : Bool)
  | jnum (tok : Str)
  | jstr (s : Str)
  | jarr (elems : List JVal)
  | jobj (fields : List (Str × JVal))

/-- A lowercase hex digit. -/
def hexDigit (n : Nat) : Nat := if n < 10 then 48 + n else 87 + n

/-- `encoding/json` string escaping: quote, backslash, the three HTML bytes
and control bytes; everything else verbatim. -/
def escByte (c : Nat) : Str :=
  if c = 34 then [92, 34]
  else if c = 92 then [92, 92]
  else if c = 10 then [92, 110]
  else if c = 13 then [92, 114]
  else if c = 9 then [92, 116]
  else if c < 32 ∨ c = 60 ∨ c = 62 ∨ c = 38 then
    [92, 117, 48, 48, hexDigit (c / 16), hexDigit (c % 16)]
  else [c]

/-- Byte-lexicographic order on strings (how `json.Marshal` sorts map keys). -/
def strLt : Str → Str → Bool
  | [], [] => false
  | [], _ :: _ => true
  | _ :: _, [] => false
  | a :: as, b :: bs => if a < b then true else if b < a then false else strLt as bs

/-- Insert a marshalled field into a key-sorted list. -/
def insertPair (p : Str × Str) : List (Str × Str) → List (Str × Str)
  | [] => [p]
  | q :: rest => if strLt q.1 p.1 then q :: insertPair p rest else p :: q :: rest

/-- Sort marshalled fields by key. -/
def sortPairs : List (Str × Str) → List (Str × Str)
  | [] => []
  | p :: rest => insertPair p (sortPairs rest)

/-- Decimal digits of `n` (`fmt.Sprintf` with the decimal verb), via a
structural fuel so that it evaluates in the kernel. -/
def natToDecAux : Nat → Nat → Str
  | 0, _ => []
  | fuel + 1, n => if n < 10 then [48 + n] else natToDecAux fuel (n / 10) ++ [48 + n % 10]

/-- Decimal digits of `n`. -/
def natToDec (n : Nat) : Str := natToDecAux (n + 1) n

mutual
/-- `json.Marshal` of a document: compact separators, object keys sorted
byte-wise, strings escaped as `escByte`. -/
def marshalV : JVal → Str
  | JVal.jnull => [110, 117, 108, 108]
  | JVal.jbool true => [116, 114, 117, 101]
  | JVal.jbool false => [102, 97, 108, 115, 101]
  | JVal.jnum tok => tok
  | JVal.jstr s => [34] ++ (s.map escByte).join ++ [34]
  | JVal.jarr elems => [91] ++ List.intercalate [44] (marshalElems elems) ++ [93]
  | JVal.jobj fields =>
    [123] ++ List.intercalate [44]
      ((sortPairs (marshalFields fields)).map
        (fun p => [34] ++ (p.1.map escByte).join ++ [34, 58] ++ p.2)) ++ [125]

/-- Marshal every array element. -/
def marshalElems : List JVal → List Str
  | [] => []
  | v :: rest => marshalV v :: marshalElems rest

/-- Marshal every field value, keeping the key. -/
def marshalFields : List (Str × JVal) → List (Str × Str)
  | [] => []
  | (k, v) :: rest => (k, marshalV v) :: marshalFields rest
end

/-- JSON inter-token white space. -/
def isWS (c : Nat) : Bool := c == 32 || c == 9 || c == 10 || c == 13

/-- First index at or after `i` holding a non-white-space byte (`s.length`
if none). -/
def skipWS (s : Str) (i : Nat) : Nat :=
  match (List.range (s.length - i)).find? (fun k => !isWS (s.getD (i + k) 0)) with
  | some k => i + k
  | none => s.length

/-- Bytes a number token may contain. -/
def isNumByte (c : Nat) : Bool :=
  (48 ≤ c && c ≤ 57) || c == 45 || c == 43 || c == 46 || c == 101 || c == 69

/-- The single-byte string escapes `json` accepts (`\u` is out of the
model's parser domain). -/
def unescByte (c : Nat) : Option Nat :=
  if c = 34 then some 34
  else if c = 92 then some 92
  else if c = 47 then some 47
  else if c = 110 then some 10
  else if c = 116 then some 9
  else if c = 114 then some 13
  else if c = 98 then some 8
  else if c = 102 then some 12
  else none

/-- Replace the value of `k`, or append it: how a Go map collects duplicate
object keys (the last one wins). -/
def upsertField (k : Str) (v : JVal) : List (Str × JVal) → List (Str × JVal)
  | [] => [(k, v)]
  | (k2, v2) :: rest => if k2 == k then (k, v) :: rest else (k2, v2) :: upsertField k v rest

mutual
/-- A JSON value starting at `i` (leading white space allowed): the value
and the index just past it.  `fuel` only bounds the model's recursion; the
top-level entry supplies more than the input length can consume. -/
def parseV : Nat → Str → Nat → Option (JVal × Nat)
  | 0, _, _ => none
  | fuel + 1, s, i =>
    let j := skipWS s i
    let c := s.getD j 0
    if c = 123 then parseFields fuel s (j + 1) []
    else if c = 91 then parseElems fuel s (j + 1) []
    else if c = 34 then
      match parseStr fuel s (j + 1) [] with
      | some (str, j2) => some (JVal.jstr str, j2)
      | none => none
    else if c = 116 then
      if (s.drop j).take 4 == [116, 114, 117, 101] then some (JVal.jbool true, j + 4) else none
    else if c = 102 then
      if (s.drop j).take 5 == [102, 97, 108, 115, 101] then some (JVal.jbool false, j + 5)
      else none
    else if c = 110 then
      if (s.drop j).take 4 == [110, 117, 108, 108] then some (JVal.jnull, j + 4) else none
    else if c = 45 ∨ (48 ≤ c ∧ c ≤ 57) then
      let tok := (s.drop j).takeWhile isNumByte
      some (JVal.jnum tok, j + tok.length)
    else none

/-- The body of a string literal, `i` just past the opening quote. -/
def parseStr : Nat → Str → Nat → Str → Option (Str × Nat)
  | 0, _, _, _ => none
  | fuel + 1, s, i, acc =>
    if i < s.length then
      let c := s.getD i 0
      if c = 34 then some (acc.reverse, i + 1)
      else if c = 92 then
        match unescByte (s.getD (i + 1) 0) with
        | some d => parseStr fuel s (i + 2) (d :: acc)
        | none => none
      else parseStr fuel s (i + 1) (c :: acc)
    else none

/-- Array elements, `i` just past `[` or a comma. -/
def parseElems : Nat → Str → Nat → List JVal → Option (JVal × Nat)
  | 0, _, _, _ => none
  | fuel + 1, s, i, acc =>
    let j := skipWS s i
    if acc.isEmpty && s.getD j 0 == 93 then some (JVal.jarr [], j + 1)
    else
      match parseV fuel s j with
      | some (v, j2) =>
        let j3 := skipWS s j2
        if s.getD j3 0 = 44 then parseElems fuel s (j3 + 1) (v :: acc)
        else if s.getD j3 0 = 93 then some (JVal.jarr (v :: acc).reverse, j3 + 1)
        else none
      | none => none

/-- Object members, `i` just past an opening brace or a comma. -/
def parseFields : Nat → Str → Nat → List (Str × JVal) → Option (JVal × Nat)
  | 0, _, _, _ => none
  | fuel + 1, s, i, acc =>
    let j := skipWS s i
    if acc.isEmpty && s.getD j 0 == 125 then some (JVal.jobj [], j + 1)
    else if s.getD j 0 = 34 then
      match parseStr fuel s (j + 1) [] with
      | some (k, j2) =>
        let j3 := skipWS s j2
        if s.getD j3 0 = 58 then
          match parseV fuel s (j3 + 1) with
          | some (v, j4) =>
            let j5 := skipWS s j4
            if s.getD j5 0 = 44 then parseFields fuel s (j5 + 1) (upsertField k v acc)
            else if s.getD j5 0 = 125 then some (JVal.jobj (upsertField k v acc), j5 + 1)
            else none
          | none => none
        else none
      | none => none
    else none
end

/-- `json.Unmarshal` of a whole text into `interface{}` (the model's parser
domain: valid JSON without `\u` escapes). -/
def parseJSON (s : Str) : Option JVal :=
  match parseV (4 * s.length + 16) s 0 with
  | some (v, j) => if skipWS s j = s.length then some v else none
  | none => none

/-- `maybeJSON` (part_005): the string holds both braces or both brackets. -/
def maybeJSON (s : Str) : Bool :=
  (s.contains 123 && s.contains 125) || (s.contains 91 && s.contains 93)

/-- `resultsToMap` (sdk_de_identify.go): `Key -> MaskText`, the later result
overwriting the earlier. -/
def resultsToMap (results : List DetectResult) : List (Str × Str) :=
  results.map (fun r => (r.key, r.maskText))

/-- Go map lookup over the model's write list: the last write wins. -/
def mapLookup (m : List (Str × Str)) (k : Str) : Option Str :=
  match m.reverse.find? (fun p => p.1 == k) with
  | some p => some p.2
  | none => none

mutual
/-- `dfsJSON` (part_005) in de-identify mode: the path is lower-cased on
entry; objects and arrays recurse into every child with the extended path;
a string leaf that looks like JSON and re-parses is re-serialized from its
parsed form (the nested walk reuses the lowered path); a plain string leaf
is replaced by its `kvMap` mask when the lowered path is a key; everything
else is returned unchanged.  `fuel` only bounds the model's recursion
(`none` = budget exhausted; the model's top entry supplies enough for any
walk the claims exercise). -/
def dfsV (kv : List (Str × Str)) : Nat → Str → JVal → Option JVal
  | 0, _, _ => none
  | fuel + 1, path, v =>
    let lpath := asciiLower path
    match v with
    | JVal.jobj fields =>
      match dfsFields kv fuel lpath fields with
      | some fields2 => some (JVal.jobj fields2)
      | none => none
    | JVal.jarr elems =>
      match dfsElems kv fuel lpath 0 elems with
      | some elems2 => some (JVal.jarr elems2)
      | none => none
    | JVal.jstr s =>
      if maybeJSON s then
        match parseJSON s with
        | some sub =>
          match dfsV kv fuel lpath sub with
          | some sub2 => some (JVal.jstr (marshalV sub2))
          | none => none
        | none => some (JVal.jstr s)
      else
        match mapLookup kv lpath with
        | some mask => some (JVal.jstr mask)
        | none => some (JVal.jstr s)
    | w => some w

/-- The object loop of `dfsJSON`: child path `lpath + "/" + k`. -/
def dfsFields (kv : List (Str × Str)) : Nat → Str → List (Str × JVal) →
    Option (List (Str × JVal))
  | 0, _, _ => none
  | _ + 1, _, [] => some []
  | fuel + 1, lpath, (k, v) :: rest =>
    match dfsV kv fuel (lpath ++ [47] ++ k) v with
    | some v2 =>
      match dfsFields kv fuel lpath rest with
      | some rest2 => some ((k, v2) :: rest2)
      | none => none
    | none => none

/-- The array loop of `dfsJSON`: child path `"/[i]"` at the root and
`lpath + "[i]"` below it. -/
def dfsElems (kv : List (Str × Str)) : Nat → Str → Nat → List JVal →
    Option (List JVal)
  | 0, _, _, _ => none
  | _ + 1, _, _, [] => some []
  | fuel + 1, lpath, i, v :: rest =>
    let subPath :=
      if lpath.length = 0 then [47, 91] ++ natToDec i ++ [93]
      else lpath ++ [91] ++ natToDec i ++ [93]
    match dfsV kv fuel subPath v with
    | some v2 =>
      match dfsElems kv fuel lpath (i + 1) rest with
      | some rest2 => some (v2 :: rest2)
      | none => none
    | none => none
end

mutual
/-- The model's size of a document, to budget `dfsV`. -/
def jsize : JVal → Nat
  | JVal.jobj fields => 1 + jsizeFields fields
  | JVal.jarr elems => 1 + jsizeElems elems
  | _ => 1

/-- Size of an object's fields. -/
def jsizeFields : List (Str × JVal) → Nat
  | [] => 1
  | (_, v) :: rest => 1 + jsize v + jsizeFields rest

/-- Size of an array's elements. -/
def jsizeElems : List JVal → Nat
  | [] => 1
  | v :: rest => 1 + jsize v + jsizeElems rest
end

/-- `DeIdentifyJSONByResult` (sdk_de_identify.go) past its lifecycle gates
(those are C3's subject): unmarshal, build the result map, walk, marshal.
`none` models the unmarshal-error return (or an exhausted model budget,
which the supplied budget prevents on every walk the claims exercise). -/
def deIdentifyJSONByResultModel (jsonText : Str) (results : List DetectResult) :
    Option Str :=
  match parseJSON jsonText with
  | none => none
  | some t =>
    match dfsV (resultsToMap results) (jsize t + 4 * jsonText.length + 16) [] t with
    | some t2 => some (marshalV t2)
    | none => none

/-- The C8 claim's words: the re-serialization of the document with every
leaf unchanged. -/
def specReserialize (jsonText : Str) : Option Str :=
  match parseJSON jsonText with
  | some t => some (marshalV t)
  | none => none

/-- The C8 counterexample text: a one-field object whose string leaf holds
an array with an inner space. -/
def c8Input : Str := [123, 34, 97, 34, 58, 34, 91, 49, 44, 32, 50, 93, 34, 125]

/-- C8 counterexample: with an empty result list (so no Key matches any
path), the walk still rewrites the string leaf, because a leaf that looks
like JSON and re-parses is re-serialized compactly: the inner space is
dropped, so the output differs from the re-serialization with the leaf
unchanged. -/
theorem C8_counterexample :
    deIdentifyJSONByResultModel c8Input [] =
      some [123, 34, 97, 34, 58, 34, 91, 49, 44, 50, 93, 34, 125] ∧
    specReserialize c8Input =
      some [123, 34, 97, 34, 58, 34, 91, 49, 44, 32, 50, 93, 34, 125] ∧
    deIdentifyJSONByResultModel c8Input [] ≠ specReserialize c8Input := by
  refine ⟨by decide, by decide, by decide⟩

mutual
/-- The corrected C8 hypothesis, walked exactly along the code's paths: no
string leaf of the document both looks like JSON and re-parses, and no
lower-cased leaf path is a key of the result map. -/
def plainLeafOK (kv : List (Str × Str)) (path : Str) : JVal → Bool
  | JVal.jobj fields => fieldsLeafOK kv (asciiLower path) fields
  | JVal.jarr elems => elemsLeafOK kv (asciiLower path) 0 elems
  | JVal.jstr s =>
    !(maybeJSON s && (parseJSON s).isSome) && (mapLookup kv (asciiLower path)).isNone
  | _ => true

/-- `plainLeafOK` over an object's fields. -/
def fieldsLeafOK (kv : List (Str × Str)) (lpath : Str) : List (Str × JVal) → Bool
  | [] => true
  | (k, v) :: rest => plainLeafOK kv (lpath ++ [47] ++ k) v && fieldsLeafOK kv lpath rest

/-- `plainLeafOK` over an array's elements. -/
def elemsLeafOK (kv : List (Str × Str)) (lpath : Str) : Nat → List JVal → Bool
  | _, [] => true
  | i, v :: rest =>
    plainLeafOK kv
      (if lpath.length = 0 then [47, 91] ++ natToDec i ++ [93]
       else lpath ++ [91] ++ natToDec i ++ [93]) v &&
    elemsLeafOK kv lpath (i + 1) rest
end

lemma dfs_id (fuel : Nat) :
    (∀ (kv : List (Str × Str)) (path : Str) (v : JVal),
      plainLeafOK kv path v = true → jsize v ≤ fuel →
      dfsV kv fuel path v = some v) ∧
    (∀ (kv : List (Str × Str)) (lpath : Str) (fields : List (Str × JVal)),
      fieldsLeafOK kv lpath fields = true → jsizeFields fields ≤ fuel →
      dfsFields kv fuel lpath fields = some fields) ∧
    (∀ (kv : List (Str × Str)) (lpath : Str) (i : Nat) (elems : List JVal),
      elemsLeafOK kv lpath i elems = true → jsizeElems elems ≤ fuel →
      dfsElems kv fuel lpath i elems = some elems) := by
  induction fuel with
  | zero =>
    refine ⟨?_, ?_, ?_⟩
    · intro kv path v h hs
      cases v <;> simp [jsize, jsizeFields, jsizeElems] at hs
    · intro kv lpath fields h hs
      cases fields <;> simp [jsizeFields] at hs
    · intro kv lpath i elems h hs
      cases elems <;> simp [jsizeElems] at hs
  | succ f ih =>
    obtain ⟨ihV, ihF, ihE⟩ := ih
    refine ⟨?_, ?_, ?_⟩
    · intro kv path v h hs
      cases v with
      | jobj fields =>
        rw [dfsV]
        rw [plainLeafOK] at h
        rw [ihF kv (asciiLower path) fields h (by rw [jsize] at hs; omega)]
      | jarr elems =>
        rw [dfsV]
        rw [plainLeafOK] at h
        rw [ihE kv (asciiLower path) 0 elems h (by rw [jsize] at hs; omega)]
      | jstr s =>
        rw [dfsV]
        rw [plainLeafOK] at h
        simp only [Bool.and_eq_true, Bool.not_eq_true', Bool.and_eq_false_iff,
          Option.isNone_iff_eq_none] at h
        rcases h with ⟨h1, h2⟩
        rcases h1 with h1 | h1
        · simp [h1, h2]
        · by_cases hm : maybeJSON s
          · simp only [hm, if_true]
            rw [show parseJSON s = none from by
              cases hp : parseJSON s with
              | none => rfl
              | some t => rw [hp] at h1; simp at h1]
          · simp [hm, h2]
      | jnull =>
        rw [dfsV]
        all_goals (intro x h2; exact JVal.noConfusion h2)
      | jbool b =>
        rw [dfsV]
        all_goals (intro x h2; exact JVal.noConfusion h2)
      | jnum tok =>
        rw [dfsV]
        all_goals (intro x h2; exact JVal.noConfusion h2)
    · intro kv lpath fields h hs
      cases fields with
      | nil => rw [dfsFields]
      | cons p rest =>
        rcases p with ⟨k, v⟩
        rw [dfsFields]
        rw [fieldsLeafOK] at h
        simp only [Bool.and_eq_true] at h
        rw [jsizeFields] at hs
        rw [ihV kv (lpath ++ [47] ++ k) v h.1 (by omega)]
        rw [ihF kv lpath rest h.2 (by omega)]
    · intro kv lpath i elems h hs
      cases elems with
      | nil => rw [dfsElems]
      | cons v rest =>
        rw [dfsElems]
        rw [elemsLeafOK] at h
        simp only [Bool.and_eq_true] at h
        rw [jsizeElems] at hs
        rw [ihV kv _ v h.1 (by omega)]
        rw [ihE kv lpath (i + 1) rest h.2 (by omega)]

/-- C8 (amended): `DeIdentifyJSONByResult` returns, with no error, the
re-serialization of the document with every leaf unchanged, PROVIDED that —
besides the claim's own hypothesis that no result `Key` equals the
lower-cased path of any plain string leaf — no string leaf of the document
both looks like JSON (`maybeJSON`) and re-parses: such a leaf is itself
walked as JSON and re-serialized compactly, which can change its bytes even
when nothing matches. -/
theorem C8_deidentify_json_amended (jsonText : Str) (results : List DetectResult)
    (t : JVal) (hp : parseJSON jsonText = some t)
    (hok : plainLeafOK (resultsToMap results) [] t = true) :
    deIdentifyJSONByResultModel jsonText results = some (marshalV t) ∧
    specReserialize jsonText = some (marshalV t) := by
  constructor
  · have hd := (dfs_id (jsize t + 4 * jsonText.length + 16)).1 (resultsToMap results) [] t
      hok (by omega)
    rw [deIdentifyJSONByResultModel, hp]
    simp [hd]
  · rw [specReserialize, hp]

/-- Witness for C8 (amended) at a one-field object with a plain string
leaf and an empty result list. -/
theorem C8_deidentify_json_amended_witness :
    parseJSON [123, 34, 97, 34, 58, 34, 120, 34, 125] =
      some (JVal.jobj [([97], JVal.jstr [120])]) ∧
    deIdentifyJSONByResultModel [123, 34, 97, 34, 58, 34, 120, 34, 125] [] =
      some (marshalV (JVal.jobj [([97], JVal.jstr [120])])) :=
  ⟨rfl,
   (C8_deidentify_json_amended [123, 34, 97, 34, 58, 34, 120, 34, 125] []
      (JVal.jobj [([97], JVal.jstr [120])]) rfl (by decide)).1⟩

end Godlp
